import Mathlib

/-
Verification development for the AVocado sprite packer:
the max-rects bin packer (src/src/av/bin_pack.hpp), the multi-page packing
driver (src/packer/packer.cpp), and the texture-atlas binary serialization
(src/packer/packer.cpp writer, src/src/av/io.hpp streams,
src/src/av/graphics/2d/texture_atlas.hpp reader).

Modelling conventions:
* C++ `int` values are modelled by unbounded `Int`; arithmetic that would
  overflow a 32-bit int is undefined behaviour in the source, and every
  theorem below stays inside the int range (with hypotheses where needed).
  `std::numeric_limits<int>::max()` is the literal `intMax`.
* `std::vector` is modelled by `List`, with the source's swap-remove idiom
  (`v[i] = v.back(); v.pop_back();`) modelled by `swapRemove`.
* Byte streams are `List Nat` with each byte in 0..255; multi-byte integers
  are laid out little-endian, matching the x86-64 host the packer targets.
-/

namespace av

/-- Axis-aligned integer rectangle, from `rect<int>` in src/src/av/math.hpp.
All fields default to 0, matching the in-class initializers. -/
structure rect where
  x : Int := 0
  y : Int := 0
  width : Int := 0
  height : Int := 0
deriving DecidableEq, Repr

instance : Inhabited rect := ⟨{}⟩

/-- Placement request size, from `rect_size<int>` in src/src/av/math.hpp. -/
structure rect_size where
  width : Int
  height : Int
deriving DecidableEq, Repr

/-- Containment test `rect::contained_in` from src/src/av/math.hpp (non-strict:
every rectangle is contained in itself). -/
def rect.contained_in (r other : rect) : Prop :=
  r.x ≥ other.x ∧ r.y ≥ other.y ∧
  r.x + r.width ≤ other.x + other.width ∧
  r.y + r.height ≤ other.y + other.height

instance (r other : rect) : Decidable (r.contained_in other) := by
  unfold rect.contained_in; exact inferInstance

/-- The value `std::numeric_limits<int>::max()` for the 32-bit `int` the code
is compiled with; used as the "no fit" sentinel throughout the source. -/
def intMax : Int := 2147483647

/-- Integer point membership in the half-open box spanned by a rectangle. -/
def rect.containsPt (r : rect) (px py : Int) : Prop :=
  r.x ≤ px ∧ px < r.x + r.width ∧ r.y ≤ py ∧ py < r.y + r.height

/-- Area of the intersection of two rectangles, clamped at zero: the measure in
which the spec states the used-rectangle no-overlap invariant. -/
def interArea (a b : rect) : Int :=
  max 0 (min (a.x + a.width) (b.x + b.width) - max a.x b.x) *
  max 0 (min (a.y + a.height) (b.y + b.height) - max a.y b.y)

/-- Point-level disjointness; equivalent to zero intersection area. -/
def ptDisjoint (a b : rect) : Prop :=
  ∀ px py : Int, ¬(a.containsPt px py ∧ b.containsPt px py)

/-- A point subset relation between rectangles: monotonicity vehicle for
disjointness. -/
def ptSubset (a b : rect) : Prop :=
  ∀ px py : Int, a.containsPt px py → b.containsPt px py

/-- Two-way non-containment: the free-list minimality relation of the spec
("no free rectangle is wholly contained in another"). -/
def CFrel (a b : rect) : Prop :=
  ¬a.contained_in b ∧ ¬b.contained_in a

/-- The swap-remove idiom `v[i] = v.back(); v.pop_back();` used all over
bin_pack.hpp: overwrite slot `i` with the last element, then drop the last. -/
def swapRemove (l : List rect) (i : Nat) : List rect :=
  (l.set i (l.getLast?.getD default)).dropLast

/-- Max-rects bin packer state, from class `bin_pack` in src/src/av/bin_pack.hpp. -/
structure bin_pack where
  bin_width : Int
  bin_height : Int
  new_free_rects_last_size : Nat
  new_free_rects : List rect
  used_rects : List rect
  free_rects : List rect
deriving DecidableEq, Repr

/-- The two members mutated by `insert_new`/`split_free_node`
(`new_free_rects_last_size` and `new_free_rects`), factored out because those
methods touch nothing else of the packer state. -/
structure freshList where
  last_size : Nat
  rects : List rect
deriving DecidableEq, Repr

namespace bin_pack

/-- `bin_pack::init`: clear used/free lists and seed one free rectangle covering
the whole bin.  (The `bin_pack(int,int)` constructor simply calls init on the
default state, whose vectors are empty.) -/
def init (width height : Int) : bin_pack :=
  { bin_width := width, bin_height := height,
    new_free_rects_last_size := 0, new_free_rects := [],
    used_rects := [],
    free_rects := [{ x := 0, y := 0, width := width, height := height }] }

/-- Result of `bin_pack::find_pos`: the candidate node and the two scores
returned through the by-reference out parameters. -/
structure posResult where
  node : rect
  s1 : Int
  s2 : Int
deriving DecidableEq, Repr

/-- A free rectangle accepts a (width, height) request, as tested on line 163
of bin_pack.hpp (`r.width >= width && r.height >= height`, upright only). -/
def fits (r : rect) (w h : Int) : Prop :=
  r.width ≥ w ∧ r.height ≥ h

instance (r : rect) (w h : Int) : Decidable (fits r w h) := by
  unfold fits; exact inferInstance

/-- The (short fit, long fit) score pair computed for a fitting free rectangle
on lines 164-167 of bin_pack.hpp:
`leftover_hor = abs(r.width - width)`, `leftover_ver = abs(r.height - height)`,
`short_fit = min(...)`, `long_fit = max(...)`. -/
def spPair (r : rect) (w h : Int) : Int × Int :=
  (min |r.width - w| |r.height - h|, max |r.width - w| |r.height - h|)

/-- Strict lexicographic comparison on score pairs: the improvement test
`short_fit < best_short_fit || (short_fit == best_short_fit && long_fit <
best_long_fit)` of line 169 (the same shape as `operator<` on
`std::pair<int,int>`, used in the driver). -/
def lexLt (a b : Int × Int) : Prop :=
  a.1 < b.1 ∨ (a.1 = b.1 ∧ a.2 < b.2)

instance (a b : Int × Int) : Decidable (lexLt a b) := by
  unfold lexLt; exact inferInstance

/-- The scanning loop of `bin_pack::find_pos` (lines 159-178): walk the free
list in order, keeping the first strict lexicographic (short fit, long fit)
improvement; a kept candidate sits at the free rectangle's top-left corner
with the requested size (lines 170-175). -/
def find_posLoop (w h : Int) : List rect → posResult → posResult
  | [], acc => acc
  | r :: rest, acc =>
    if fits r w h then
      if lexLt (spPair r w h) (acc.s1, acc.s2) then
        find_posLoop w h rest
          ⟨{ x := r.x, y := r.y, width := w, height := h },
            (spPair r w h).1, (spPair r w h).2⟩
      else
        find_posLoop w h rest acc
    else
      find_posLoop w h rest acc

/-- `bin_pack::find_pos`: scores start at the int-max sentinel and the node at
the zero-initialized `rect<int> best_node{}`. -/
def find_pos (self : bin_pack) (w h : Int) : posResult :=
  find_posLoop w h self.free_rects ⟨{}, intMax, intMax⟩

/-- `bin_pack::score` (lines 125-136): like find_pos, but a zero-height node
resets both scores to the sentinel. -/
def score (self : bin_pack) (w h : Int) : posResult :=
  let r := find_pos self w h
  if r.node.height = 0 then ⟨r.node, intMax, intMax⟩ else r

/-- The scan in `bin_pack::insert_new` (lines 186-200) over the freshly split
rectangles at indices below `new_free_rects_last_size`: drop the new rectangle
if an earlier fresh one contains it, remove earlier fresh ones it contains
(the double swap keeps the old/new partition), else append it. -/
def insert_newLoop (nf : freshList) (new_rect : rect) (i : Nat) : freshList :=
  if i < nf.last_size then
    let ri := nf.rects.getD i default
    if new_rect.contained_in ri then
      nf
    else if ri.contained_in new_rect then
      let ls := nf.last_size - 1
      let rects := nf.rects.set i (nf.rects.getD ls default)
      insert_newLoop ⟨ls, swapRemove rects ls⟩ new_rect i
    else
      insert_newLoop nf new_rect (i + 1)
  else
    ⟨nf.last_size, nf.rects ++ [new_rect]⟩
termination_by nf.last_size - i
decreasing_by
  · omega
  · omega

/-- `bin_pack::insert_new` (lines 183-203): degenerate rectangles are refused
outright. -/
def insert_new (nf : freshList) (new_rect : rect) : freshList :=
  if new_rect.width = 0 ∨ new_rect.height = 0 then nf
  else insert_newLoop nf new_rect 0

/-- `bin_pack::split_free_node` (lines 206-256): SAT reject if the rectangles
do not intersect, otherwise produce the up-to-four residual rectangles above,
below, left and right of the used node, each guarded exactly as in the source. -/
def split_free_node (nf : freshList) (free used : rect) : Bool × freshList :=
  if used.x ≥ free.x + free.width ∨ used.x + used.width ≤ free.x ∨
     used.y ≥ free.y + free.height ∨ used.y + used.height ≤ free.y then
    (false, nf)
  else
    let st0 : freshList := ⟨nf.rects.length, nf.rects⟩
    let st1 :=
      if used.x < free.x + free.width ∧ used.x + used.width > free.x then
        let sta :=
          if used.y > free.y ∧ used.y < free.y + free.height then
            insert_new st0 { free with height := used.y - free.y }
          else st0
        if used.y + used.height < free.y + free.height then
          insert_new sta { free with y := used.y + used.height,
                                     height := free.y + free.height - (used.y + used.height) }
        else sta
      else st0
    let st2 :=
      if used.y < free.y + free.height ∧ used.y + used.height > free.y then
        let stc :=
          if used.x > free.x ∧ used.x < free.x + free.width then
            insert_new st1 { free with width := used.x - free.x }
          else st1
        if used.x + used.width < free.x + free.width then
          insert_new stc { free with x := used.x + used.width,
                                     width := free.x + free.width - (used.x + used.width) }
        else stc
      else st1
    (true, st2)

/-- Negation of the SAT rejection test at the top of split_free_node
(lines 208-211): the used and free rectangles genuinely intersect. -/
def splitConds (free used : rect) : Prop :=
  used.x < free.x + free.width ∧ used.x + used.width > free.x ∧
  used.y < free.y + free.height ∧ used.y + used.height > free.y

instance (free used : rect) : Decidable (splitConds free used) := by
  unfold splitConds; exact inferInstance

/-- The residual rectangle at the top side of the used node (lines 219-224). -/
def topRes (free used : rect) : rect :=
  { free with height := used.y - free.y }

/-- The residual rectangle at the bottom side of the used node (lines 227-233). -/
def botRes (free used : rect) : rect :=
  { free with y := used.y + used.height,
              height := free.y + free.height - (used.y + used.height) }

/-- The residual rectangle at the left side of the used node (lines 238-243). -/
def leftRes (free used : rect) : rect :=
  { free with width := used.x - free.x }

/-- The residual rectangle at the right side of the used node (lines 246-252). -/
def rightRes (free used : rect) : rect :=
  { free with x := used.x + used.width,
              width := free.x + free.width - (used.x + used.width) }

/-- The residual rectangles a split can produce, each tagged with the guard
under which split_free_node creates it (the other half of each source guard is
implied by the split conditions). -/
def residualOf (r free used : rect) : Prop :=
  (used.y > free.y ∧ r = topRes free used) ∨
  (used.y + used.height < free.y + free.height ∧ r = botRes free used) ∨
  (used.x > free.x ∧ r = leftRes free used) ∨
  (used.x + used.width < free.x + free.width ∧ r = rightRes free used)

/-- A residual's origin: it was split off some overlapped free rectangle of
the original free list. -/
def residualOrigin (orig : List rect) (node r : rect) : Prop :=
  ∃ F ∈ orig, splitConds F node ∧ residualOf r F node

/-- The free-list loop of `bin_pack::place` (lines 140-147): split every free
rectangle overlapping the node, swap-removing the split ones. -/
def placeLoop (free : List rect) (nf : freshList) (node : rect) (i : Nat) :
    List rect × freshList :=
  if i < free.length then
    let res := split_free_node nf (free.getD i default) node
    if res.1 then
      placeLoop (swapRemove free i) res.2 node i
    else
      placeLoop free res.2 node (i + 1)
  else (free, nf)
termination_by free.length - i
decreasing_by
  · simp only [swapRemove, List.length_dropLast, List.length_set]
    omega
  · omega

/-- Inner loop of `bin_pack::prune_free_list` (lines 262-269): swap-remove
every new free rectangle contained in the given old free rectangle. -/
def pruneInner (old : rect) (nf : List rect) (j : Nat) : List rect :=
  if j < nf.length then
    if (nf.getD j default).contained_in old then
      pruneInner old (swapRemove nf j) j
    else
      pruneInner old nf (j + 1)
  else nf
termination_by nf.length - j
decreasing_by
  · simp only [swapRemove, List.length_dropLast, List.length_set]
    omega
  · omega

/-- Outer loop of `bin_pack::prune_free_list` (lines 261-270): the old free
list is only read by it, so it is traversed structurally. -/
def pruneOuter (nf : List rect) : List rect → List rect
  | [] => nf
  | f :: rest => pruneOuter (pruneInner f nf 0) rest

/-- `bin_pack::place` (lines 139-151): split overlapped free rectangles,
prune (`prune_free_list`, lines 259-275: filter the fresh rectangles against
the surviving old ones, append them, clear the fresh list), then append the
node to the used list. -/
def place (self : bin_pack) (node : rect) : bin_pack :=
  let p := placeLoop self.free_rects ⟨self.new_free_rects_last_size, self.new_free_rects⟩ node 0
  { self with
    free_rects := p.1 ++ pruneOuter p.2.rects p.1,
    new_free_rects := [],
    new_free_rects_last_size := p.2.last_size,
    used_rects := self.used_rects ++ [node] }

/-- Single-rectangle `bin_pack::insert` (lines 93-103): find the best position;
a zero-height node means no fit and nothing is committed. -/
def insert (self : bin_pack) (width height : Int) : rect × bin_pack :=
  let new_node := (find_pos self width height).node
  if new_node.height = 0 then (new_node, self)
  else (new_node, place self new_node)

/-- States produced by `init` followed by any sequence of single-rectangle
inserts.  `place` is private in the source and is reached only through
`insert` on a freshly scored node; the batch `insert(vector&, vector&)`
overload likewise only places nodes scored with nonzero height, and is unused
by the repository's packer driver, so these traces cover the claims'
"insert/place" operation sequences. -/
inductive reachable : bin_pack → Prop
  | init (width height : Int) : reachable (init width height)
  | insert (st : bin_pack) (width height : Int) :
      reachable st → reachable (st.insert width height).2

/-- The packer-state invariant maintained by `init` and `insert`: the scratch
list is empty between operations, the free list is two-way containment-free,
used rectangles are pairwise point-disjoint and point-disjoint from every free
rectangle, and every free rectangle lies inside the bin. -/
def MasterInv (st : bin_pack) : Prop :=
  st.new_free_rects = [] ∧
  List.Pairwise CFrel st.free_rects ∧
  List.Pairwise ptDisjoint st.used_rects ∧
  (∀ f ∈ st.free_rects, ∀ u ∈ st.used_rects, ptDisjoint f u) ∧
  (∀ f ∈ st.free_rects,
    f.contained_in { x := 0, y := 0, width := st.bin_width, height := st.bin_height })

end bin_pack

namespace packer

/-- Driver state across the packing loop of packer.cpp (lines 76-132): the
`infos` array of (name, padded size) pairs (a placed sprite's size is
overwritten with the int-max marker, line 123), the open bins, the per-page
region maps, and the loop counter `i` counting placed sprites.  The pixel
pages (`av::pixmap`, lines 77 and 122) are external to the core (spec section
4.3) and carry nothing the claims mention, so they are not modelled. -/
structure DriverState where
  infos : List (String × rect_size)
  bins : List bin_pack
  regions : List (List (String × rect))
  placed : Nat
deriving DecidableEq, Repr

/-- The inner bin scan for one sprite (packer.cpp lines 91-103): score each
open bin in order; a bin counts as fitting when neither returned score is the
int-max sentinel, and the strictly best (lexicographically smallest) score
pair wins.  `best_bin_local` is uninitialized in the source until the first
fit; the model starts it at 0, and it is always overwritten before being read
because the first fitting score strictly beats the sentinel pair. -/
def binLoop (w h : Int) : List bin_pack → Nat → Bool → (Int × Int) → Nat →
    Bool × (Int × Int) × Nat
  | [], _, fits0, bin_score, best_local => (fits0, bin_score, best_local)
  | b :: rest, k, fits0, bin_score, best_local =>
    let sc := bin_pack.score b w h
    if sc.s1 ≠ intMax ∧ sc.s2 ≠ intMax then
      if bin_pack.lexLt (sc.s1, sc.s2) bin_score then
        binLoop w h rest (k + 1) true (sc.s1, sc.s2) k
      else
        binLoop w h rest (k + 1) true bin_score best_local
    else
      binLoop w h rest (k + 1) fits0 bin_score best_local

/-- The sprite scan (packer.cpp lines 86-113): find each pending sprite's best
bin, and keep the globally strictly best (sprite, bin) pair.  `best_bin` and
`best_rect` are likewise uninitialized until the first fit and modelled as 0.
-/
def spriteLoop (bins : List bin_pack) :
    List (String × rect_size) → Nat → Bool → (Int × Int) → Nat → Nat →
    Bool × (Int × Int) × Nat × Nat
  | [], _, all_fit, rect_score, best_bin, best_rect =>
    (all_fit, rect_score, best_bin, best_rect)
  | info :: rest, j, all_fit, rect_score, best_bin, best_rect =>
    let r := binLoop info.2.width info.2.height bins 0 false (intMax, intMax) 0
    if r.1 then
      if bin_pack.lexLt r.2.1 rect_score then
        spriteLoop bins rest (j + 1) true r.2.1 r.2.2 j
      else
        spriteLoop bins rest (j + 1) true rect_score best_bin best_rect
    else
      spriteLoop bins rest (j + 1) all_fit rect_score best_bin best_rect

/-- `unordered_map::emplace` (packer.cpp line 124): insert only when the key
is absent; an existing mapping is left untouched. -/
def emplace (m : List (String × rect)) (key : String) (v : rect) :
    List (String × rect) :=
  if m.any (fun e => e.1 == key) then m else m ++ [(key, v)]

/-- One iteration of the driver's packing loop (packer.cpp lines 81-131).
When some sprite fits some open bin, the globally best pair is placed: the
committed rectangle is shrunk by `padding` (lines 117-120, note: x/y move in
by padding but width/height shrink by padding only once), the sprite's size is
overwritten with the int-max marker (line 123) and its region recorded (line
124; the name field read there is unaffected by the line-123 marker write).
Otherwise a fresh bin and an empty region map are opened (lines 128-130).
Source indexing (`bins[best_bin]` etc.) is always in range; `getD` supplies an
unreachable default. -/
def driverStep (bin_width bin_height padding : Int) (st : DriverState) : DriverState :=
  let r := spriteLoop st.bins st.infos 0 false (intMax, intMax) 0 0
  if r.1 then
    let best_bin := r.2.2.1
    let best_rect := r.2.2.2
    let info := st.infos.getD best_rect ("", ⟨0, 0⟩)
    let ins := bin_pack.insert (st.bins.getD best_bin (bin_pack.init 0 0))
      info.2.width info.2.height
    let placeRect : rect :=
      { x := ins.1.x + padding, y := ins.1.y + padding,
        width := ins.1.width - padding, height := ins.1.height - padding }
    { infos := st.infos.set best_rect (info.1, ⟨intMax, intMax⟩),
      bins := st.bins.set best_bin ins.2,
      regions := st.regions.set best_bin
        (emplace (st.regions.getD best_bin []) info.1 placeRect),
      placed := st.placed + 1 }
  else
    { st with bins := st.bins ++ [bin_pack.init bin_width bin_height],
              regions := st.regions ++ [[]] }

/-- The driver's packing loop `for(int i = 0; i < total;)` (packer.cpp line
81) with explicit fuel: `none` means the loop did not finish within `fuel`
iterations (the source loop has no other exit and runs forever on sprites
that can never fit a page). -/
def driverLoop (bin_width bin_height padding : Int) (fuel : Nat) (st : DriverState) :
    Option DriverState :=
  match fuel with
  | 0 => none
  | fuel + 1 =>
    if st.placed < st.infos.length then
      driverLoop bin_width bin_height padding fuel (driverStep bin_width bin_height padding st)
    else
      some st

/-- The driver after sprite discovery (packer.cpp lines 51-132): infos hold
each sprite's name and padded size `raw + 2 * padding` (line 66), and the
packing loop starts with no bins, no pages and no regions. -/
def driverRun (sprites : List (String × rect_size)) (bin_width bin_height padding : Int)
    (fuel : Nat) : Option DriverState :=
  driverLoop bin_width bin_height padding fuel
    { infos := sprites.map (fun s =>
        (s.1, (⟨s.2.width + padding * 2, s.2.height + padding * 2⟩ : rect_size))),
      bins := [], regions := [], placed := 0 }

/-- Default info entry supplied to out-of-range getD reads of the info array
(the source indexes with always-in-range indices). -/
def dInfo : String × rect_size := ("", ⟨0, 0⟩)

/-- The int-max size written over a placed sprite's info entry (packer.cpp
line 123): it marks the sprite as done, because no real page can fit it
again. -/
def marker : rect_size := ⟨intMax, intMax⟩

/-- A sound greedy pick (bin index `bb`, sprite index `br`): both indices are
in range and some open bin scores the sprite's current size below the
sentinel. -/
def pickOK (bins : List bin_pack) (infos : List (String × rect_size))
    (bb br : Nat) : Prop :=
  br < infos.length ∧ bb < bins.length ∧
  ∃ b ∈ bins,
    (bin_pack.score b (infos.getD br dInfo).2.width
        (infos.getD br dInfo).2.height).s1 ≠ intMax ∧
    (bin_pack.score b (infos.getD br dInfo).2.width
        (infos.getD br dInfo).2.height).s2 ≠ intMax

/-- The driver-loop invariant tying a loop state to the initial info array:
names are never changed and sizes are either original or the done marker, the
loop counter counts the marked entries, the names recorded across all pages
are exactly the marked names as a multiset, pages and bins stay in step, and
every open bin satisfies the bin_pack master invariant at the page size. -/
def DInv (W H : Int) (infos0 : List (String × rect_size))
    (st : DriverState) : Prop :=
  st.infos.length = infos0.length ∧
  (∀ j, j < infos0.length →
    (st.infos.getD j dInfo).1 = (infos0.getD j dInfo).1 ∧
    ((st.infos.getD j dInfo).2 = (infos0.getD j dInfo).2 ∨
      (st.infos.getD j dInfo).2 = marker)) ∧
  st.placed = st.infos.countP (fun e => decide (e.2 = marker)) ∧
  (st.regions.flatten.map Prod.fst).Perm
    ((st.infos.filter (fun e => decide (e.2 = marker))).map Prod.fst) ∧
  st.regions.length = st.bins.length ∧
  (∀ b ∈ st.bins, bin_pack.MasterInv b ∧ b.bin_width = W ∧ b.bin_height = H)

end packer

namespace atlas

/-- Little-endian byte dump of the low `k` bytes of a natural number: the raw
`out.write(reinterpret_cast<const char*>(&value), sizeof(T))` of io.hpp line
26 on the x86-64 host. -/
def leBytes : Nat → Nat → List Nat
  | 0, _ => []
  | k + 1, n => n % 256 :: leBytes k (n / 256)

/-- `static_cast<unsigned short>` of a C++ int: reduction mod 2^16. -/
def u16ofInt (v : Int) : Nat := (v % 65536).toNat

/-- One named region of an atlas page, as the packer writes it
(packer.cpp lines 155-162). -/
structure atlasRegion where
  name : List Nat
  x : Int
  y : Int
  width : Int
  height : Int
deriving DecidableEq, Repr

/-- One atlas page: its page-image name and its named regions, in the order
the writer's map iteration emits them. -/
structure atlasPage where
  name : List Nat
  regions : List atlasRegion
deriving DecidableEq, Repr

/-- `writes::write<std::string>` (io.hpp lines 31-38): u32 byte length, then
the raw bytes, not NUL-terminated. -/
def writeString (s : List Nat) : List Nat :=
  leBytes 4 s.length ++ s

/-- The per-region write of packer.cpp lines 155-162: name, then x, y, width,
height each as `static_cast<unsigned short>` of the stored int. -/
def encodeRegion (r : atlasRegion) : List Nat :=
  writeString r.name ++ leBytes 2 (u16ofInt r.x) ++ leBytes 2 (u16ofInt r.y) ++
    leBytes 2 (u16ofInt r.width) ++ leBytes 2 (u16ofInt r.height)

/-- The per-page write of packer.cpp lines 145-163: page-image name, then the
region count as the two raw bytes of `static_cast<short>(map.size())` (equal
to the size mod 2^16), then the regions.  (The page image itself goes to a
separate file, line 150, and is not part of the atlas byte stream.) -/
def encodePage (p : atlasPage) : List Nat :=
  writeString p.name ++ leBytes 2 (p.regions.length % 65536) ++
    (p.regions.map encodeRegion).flatten

/-- The atlas write of packer.cpp lines 143-163: version byte 1, page count as
`static_cast<unsigned char>(pages.size())`, then the pages.  (The writer
derives page-image names as "textureN.png"; here the name is carried by the
page record, per the spec's Atlas data model.) -/
def encodeAtlas (pages : List atlasPage) : List Nat :=
  1 :: pages.length % 256 :: (pages.map encodePage).flatten

/-- An abstract `std::istream` over bytes: contents, read position, and the
fail bit. -/
structure ioStream where
  data : List Nat
  pos : Nat
  fail : Bool
deriving DecidableEq, Repr

/-- `std::istream::read(buf, n)`: extract up to `n` bytes; extracting fewer
than requested sets the fail bit, and a failed stream extracts nothing. -/
def readBytes (st : ioStream) (n : Nat) : List Nat × ioStream :=
  if st.fail then ([], st)
  else
    let avail := st.data.length - st.pos
    let k := min n avail
    ((st.data.drop st.pos).take k,
      { st with pos := st.pos + k, fail := decide (k < n) })

/-- `reads::read<T>` for a k-byte unsigned integer (io.hpp lines 63-82):
`T value{}` zero-initializes, then `in.read` overwrites the low extracted
bytes (little-endian host); bytes missing from a short read stay zero. -/
def readUInt (st : ioStream) (k : Nat) : Nat × ioStream :=
  let r := readBytes st k
  (r.1.foldr (fun b acc => b + 256 * acc) 0, r.2)

/-- `reads::read<std::string>` (io.hpp lines 98-108): u32 length, then `len`
bytes into a stack buffer terminated with a NUL and assigned through
`operator=(const char*)`, so the value stops at the first NUL byte.  On a
short read the buffer's tail is indeterminate in C++; the model reads the
missing bytes as absent, which the NUL cut makes observationally consistent;
no theorem below depends on that case. -/
def readString (st : ioStream) : List Nat × ioStream :=
  let l := readUInt st 4
  let r := readBytes l.2 l.1
  (r.1.takeWhile (fun b => b != 0), r.2)

/-- One region of a loaded texture atlas: `texture_region` of
texture_atlas.hpp with the texture pointer modelled as the page index (the
float UV fields are derived display data outside the claims). -/
structure texture_regionM where
  page : Nat
  x : Int
  y : Int
  width : Int
  height : Int
deriving DecidableEq, Repr

/-- The loaded `texture_atlas`: page textures (each represented by the
page-image name its pixmap was loaded from) and the global name-to-region
map. -/
structure texture_atlasM where
  textures : List (List Nat)
  regions : List (List Nat × texture_regionM)
deriving DecidableEq, Repr

/-- `unordered_map::emplace` on the regions map (texture_atlas.hpp line 190):
insert only when the key is absent. -/
def emplaceR (m : List (List Nat × texture_regionM)) (key : List Nat)
    (v : texture_regionM) : List (List Nat × texture_regionM) :=
  if m.any (fun e => e.1 == key) then m else m ++ [(key, v)]

/-- Increment wraparound of the decoder's `char` loop counter on the x86-64
target, where `char` is signed 8-bit: values stay in -128..127. -/
def wrap8 (i : Int) : Int := (i + 128) % 256 - 128

/-- Increment wraparound of the decoder's `short` region loop counter
(signed 16-bit): values stay in -32768..32767. -/
def wrap16 (i : Int) : Int := (i + 32768) % 65536 - 32768

/-- Errors escaping texture_atlas::load: the version error it throws itself
(line 172), and the error the `pixmap(const char *)` constructor throws from
line 178 when `stbi_load` cannot load the named page image (pixmap.hpp lines
51-57). -/
inductive loadError
  | unsupportedVersion (v : Nat)
  | pixmapLoadFailed (filename : List Nat)
deriving DecidableEq, Repr

/-- The region loop of texture_atlas::load (lines 181-191):
`for(short j = 0; j < region_size; j++)` — the counter is a signed short,
compared against the promoted unsigned short count; each iteration reads a
name and four u16 coordinates and emplaces the region.  Fuel counts loop
iterations; `none` means the loop did not finish within the fuel. -/
def loadRegions : Nat → Nat → Int → Nat → ioStream → texture_atlasM →
    Option (texture_atlasM × ioStream)
  | 0, _, _, _, _, _ => none
  | fuel + 1, region_size, j, pageIdx, st, acc =>
    if j < (region_size : Int) then
      let n := readString st
      let x := readUInt n.2 2
      let y := readUInt x.2 2
      let w := readUInt y.2 2
      let h := readUInt w.2 2
      let reg : texture_regionM :=
        ⟨pageIdx, (x.1 : Int), (y.1 : Int), (w.1 : Int), (h.1 : Int)⟩
      loadRegions fuel region_size (wrap16 (j + 1)) pageIdx h.2
        { acc with regions := emplaceR acc.regions n.1 reg }
    else
      some (acc, st)

/-- The page loop of texture_atlas::load (lines 175-192):
`for(char i = 0; i < page_size; i++)` — the counter is a signed char on the
x86-64 target, compared against the promoted unsigned char count.  Each
iteration reads the page-image name, constructs a `pixmap` from that file name
(line 178) — which throws when the image cannot be loaded, before the
`textures.emplace_back` of line 179 runs — then reads the region count as u16
and runs the region loop.  Whether a file name loads depends on the
filesystem, not on the byte stream, so it enters the model as the oracle
`canLoad`; a loaded texture is represented by the name it was loaded from.
The result carries the atlas state and the escaped error, if any; `none` is
fuel exhaustion (a non-terminating loop). -/
def loadPages (canLoad : List Nat → Bool) : Nat → Nat → Int → ioStream →
    texture_atlasM → Option (texture_atlasM × Option loadError × ioStream)
  | 0, _, _, _, _ => none
  | fuel + 1, page_size, i, st, acc =>
    if i < (page_size : Int) then
      let pn := readString st
      if canLoad pn.1 then
        let acc2 : texture_atlasM := { acc with textures := acc.textures ++ [pn.1] }
        let rs := readUInt pn.2 2
        match loadRegions fuel rs.1 0 (acc2.textures.length - 1) rs.2 acc2 with
        | none => none
        | some (acc3, st3) => loadPages canLoad fuel page_size (wrap8 (i + 1)) st3 acc3
      else
        some (acc, some (.pixmapLoadFailed pn.1), pn.2)
    else
      some (acc, none, st)

/-- `texture_atlas::load` (texture_atlas.hpp lines 167-193).  The method
first clears the previous regions and textures (lines 168-169), then reads
the version byte and throws on any value other than 1 (line 172), then reads
the page count and runs the page loop, whose page-image loads consult the
`canLoad` oracle.  The result carries the atlas state after the call together
with the escaped error, if any; `none` is fuel exhaustion (a non-terminating
loop). -/
def load (canLoad : List Nat → Bool) (prev : texture_atlasM) (fuel : Nat)
    (st : ioStream) :
    Option (texture_atlasM × Option loadError × ioStream) :=
  let self : texture_atlasM := { prev with textures := [], regions := [] }
  let v := readUInt st 1
  if v.1 ≠ 1 then some (self, some (.unsupportedVersion v.1), v.2)
  else
    let ps := readUInt v.2 1
    loadPages canLoad fuel ps.1 0 ps.2 self

end atlas


/-! ### Theorems: geometry of rectangles, swap-remove, and the find_pos scan -/

theorem interArea_eq_zero_iff (a b : rect) :
    interArea a b = 0 ↔ ∀ px py : Int, ¬(a.containsPt px py ∧ b.containsPt px py) := by
  unfold interArea rect.containsPt
  constructor
  · intro h px py hc
    have h1 : (0:Int) < max 0 (min (a.x + a.width) (b.x + b.width) - max a.x b.x) := by omega
    have h2 : (0:Int) < max 0 (min (a.y + a.height) (b.y + b.height) - max a.y b.y) := by omega
    have := mul_pos h1 h2
    omega
  · intro h
    by_contra hne
    have h1 : (0:Int) ≤ max 0 (min (a.x + a.width) (b.x + b.width) - max a.x b.x) :=
      le_max_left _ _
    have h2 : (0:Int) ≤ max 0 (min (a.y + a.height) (b.y + b.height) - max a.y b.y) :=
      le_max_left _ _
    have h1p : (0:Int) < max 0 (min (a.x + a.width) (b.x + b.width) - max a.x b.x) := by
      rcases lt_or_eq_of_le h1 with hlt | heq
      · exact hlt
      · exact absurd (by rw [← heq]; ring) hne
    have h2p : (0:Int) < max 0 (min (a.y + a.height) (b.y + b.height) - max a.y b.y) := by
      rcases lt_or_eq_of_le h2 with hlt | heq
      · exact hlt
      · exact absurd (by rw [← heq]; ring) hne
    exact h (max a.x b.x) (max a.y b.y) ⟨⟨by omega, by omega, by omega, by omega⟩,
      by omega, by omega, by omega, by omega⟩

theorem ptDisjoint_symm {a b : rect} (h : ptDisjoint a b) : ptDisjoint b a := by
  intro px py hc; exact h px py ⟨hc.2, hc.1⟩

theorem interArea_eq_zero_of_ptDisjoint {a b : rect} (h : ptDisjoint a b) :
    interArea a b = 0 := (interArea_eq_zero_iff a b).mpr h

theorem ptSubset_of_contained_in {a b : rect} (h : a.contained_in b) : ptSubset a b := by
  obtain ⟨h1, h2, h3, h4⟩ := h
  intro px py hp
  obtain ⟨p1, p2, p3, p4⟩ := hp
  exact ⟨by omega, by omega, by omega, by omega⟩

theorem ptDisjoint_mono_left {a a' b : rect} (hsub : ptSubset a' a)
    (h : ptDisjoint a b) : ptDisjoint a' b := by
  intro px py hc
  exact h px py ⟨hsub px py hc.1, hc.2⟩

theorem contained_in_trans {a b c : rect} (h1 : a.contained_in b) (h2 : b.contained_in c) :
    a.contained_in c := by
  obtain ⟨a1, a2, a3, a4⟩ := h1
  obtain ⟨b1, b2, b3, b4⟩ := h2
  exact ⟨by omega, by omega, by omega, by omega⟩

theorem length_swapRemove (l : List rect) (i : Nat) :
    (swapRemove l i).length = l.length - 1 := by
  simp [swapRemove]

theorem swapRemove_perm (l : List rect) (i : Nat) (h : i < l.length) :
    (swapRemove l i).Perm (l.eraseIdx i) := by
  have hne : l ≠ [] := by intro he; subst he; simp at h
  have hlast : l.getLast?.getD default = l.getLast hne := by
    rw [List.getLast?_eq_getLast l hne]; rfl
  have hset : l.set i (l.getLast hne) = l.take i ++ l.getLast hne :: l.drop (i + 1) := by
    rw [List.set_eq_take_append_cons_drop]; simp [h]
  have herase : l.eraseIdx i = l.take i ++ l.drop (i + 1) :=
    List.eraseIdx_eq_take_drop_succ l i
  unfold swapRemove
  rw [hlast, hset, herase]
  rcases Nat.lt_or_ge i (l.length - 1) with hi | hi
  · have hdrop_ne : l.drop (i + 1) ≠ [] := by
      intro he
      have := List.drop_eq_nil_iff.mp he
      omega
    rw [List.dropLast_append_of_ne_nil _ (List.cons_ne_nil _ _)]
    refine List.Perm.append_left _ ?_
    rw [List.dropLast_cons_of_ne_nil hdrop_ne]
    have hgl : (l.drop (i + 1)).getLast hdrop_ne = l.getLast hne := List.getLast_drop hdrop_ne
    have hdl : (l.drop (i + 1)).dropLast ++ [l.getLast hne] = l.drop (i + 1) := by
      rw [← hgl]; exact List.dropLast_append_getLast hdrop_ne
    have hp : (l.getLast hne :: (l.drop (i + 1)).dropLast).Perm
        ((l.drop (i + 1)).dropLast ++ [l.getLast hne]) :=
      (List.perm_append_singleton _ _).symm
    rw [hdl] at hp
    exact hp
  · have hd : l.drop (i + 1) = [] := by
      rw [List.drop_eq_nil_iff]; omega
    rw [hd]
    simp [List.dropLast_concat]

theorem mem_swapRemove (l : List rect) (i : Nat) {r : rect} (hx : r ∈ swapRemove l i) :
    r ∈ l := by
  rcases eq_or_ne l [] with he | hne
  · subst he; simp [swapRemove] at hx
  · unfold swapRemove at hx
    have hx2 := (List.dropLast_sublist _).subset hx
    rcases List.mem_or_eq_of_mem_set hx2 with hm | hm
    · exact hm
    · subst hm
      rw [List.getLast?_eq_getLast l hne]
      exact List.getLast_mem hne

theorem pairwise_swapRemove {R : rect → rect → Prop} (hs : ∀ {a b}, R a b → R b a)
    (l : List rect) (i : Nat) (h : List.Pairwise R l) :
    List.Pairwise R (swapRemove l i) := by
  rcases Nat.lt_or_ge i l.length with hi | hi
  · exact ((swapRemove_perm l i hi).pairwise_iff hs).mpr
      (h.sublist (List.eraseIdx_sublist l i))
  · unfold swapRemove
    rw [List.set_eq_of_length_le hi]
    exact h.sublist (List.dropLast_sublist l)

/-- The count of a rectangle value in `swapRemove l i` never exceeds its count
in `l`: swap-remove only deletes or moves elements. -/
theorem count_swapRemove_le (l : List rect) (i : Nat) (r : rect) :
    (swapRemove l i).count r ≤ l.count r := by
  rcases Nat.lt_or_ge i l.length with hi | hi
  · rw [(swapRemove_perm l i hi).count_eq]
    exact ((List.eraseIdx_sublist l i)).count_le r
  · unfold swapRemove
    rw [List.set_eq_of_length_le hi]
    exact (List.dropLast_sublist l).count_le r

theorem set_getD_self (l : List rect) (i : Nat) (h : i < l.length) :
    l.set i (l.getD i default) = l := by
  apply List.ext_getElem
  · simp
  · intro j h1 h2
    rcases eq_or_ne j i with rfl | hne
    · rw [List.getElem_set_self, List.getD_eq_getElem l default h]
    · rw [List.getElem_set_ne hne.symm]

theorem getD_append_left (l1 l2 : List rect) (i : Nat) (h : i < l1.length) :
    (l1 ++ l2).getD i default = l1.getD i default := by
  rw [List.getD_eq_getElem _ default (by simp; omega), List.getD_eq_getElem _ default h]
  exact List.getElem_append_left h

theorem getLast_getD_eq_getD (l : List rect) :
    l.getLast?.getD default = l.getD (l.length - 1) default := by
  cases l with
  | nil => rfl
  | cons a t =>
    rw [List.getLast?_eq_getElem?]
    simp [List.getD]

theorem take_swapRemove (l : List rect) (j : Nat) (h : j < l.length) :
    (swapRemove l j).take j = l.take j := by
  unfold swapRemove
  have h1 : (l.set j (l.getLast?.getD default)).dropLast
      = (l.set j (l.getLast?.getD default)).take (l.length - 1) := by
    rw [List.dropLast_eq_take, List.length_set]
  rw [h1, List.take_take]
  have h2 : min j (l.length - 1) = j := by omega
  rw [h2, List.set_eq_take_append_cons_drop, if_pos h, List.take_append_eq_append_take]
  have hlt : (List.take j l).length = j := by
    simp [min_eq_left (le_of_lt h)]
  rw [hlt, Nat.sub_self, List.take_take, min_self, List.take_zero, List.append_nil]

theorem take_succ_getD (l : List rect) (n : Nat) (h : n < l.length) :
    l.take (n + 1) = l.take n ++ [l.getD n default] := by
  rw [List.take_succ, List.getElem?_eq_getElem h]
  simp [List.getD, List.getElem?_eq_getElem h]

theorem swapRemove_subperm (l : List rect) (i : Nat) : List.Subperm (swapRemove l i) l := by
  rcases Nat.lt_or_ge i l.length with hi | hi
  · exact ⟨l.eraseIdx i, (swapRemove_perm l i hi).symm, List.eraseIdx_sublist l i⟩
  · unfold swapRemove
    rw [List.set_eq_of_length_le hi]
    exact (List.dropLast_sublist l).subperm

theorem pairwise_of_subperm {R : rect → rect → Prop} (hs : ∀ {a b}, R a b → R b a)
    {l1 l2 : List rect} (h : List.Subperm l1 l2) (hp : l2.Pairwise R) : l1.Pairwise R := by
  obtain ⟨l, hperm, hsub⟩ := h
  exact (hperm.pairwise_iff hs).mp (hp.sublist hsub)

/-- The double swap in insert_new's removal branch
(`new_free_rects[i] = new_free_rects[--new_free_rects_last_size];
new_free_rects[new_free_rects_last_size] = new_free_rects.back();
new_free_rects.pop_back();`) removes the old rectangle at slot `i` while only
permuting the tail of fresh rectangles. -/
theorem swap_dance (olds sibs : List rect) (i : Nat) (hi : i < olds.length) :
    ∃ sibs2 : List rect, sibs2.Perm sibs ∧
      swapRemove ((olds ++ sibs).set i ((olds ++ sibs).getD (olds.length - 1) default))
        (olds.length - 1)
        = swapRemove olds i ++ sibs2 := by
  have hone : olds ≠ [] := by intro he; subst he; simp at hi
  have holen : 0 < olds.length := List.length_pos.mpr hone
  have hls : olds.length - 1 < olds.length := by omega
  have hgd : (olds ++ sibs).getD (olds.length - 1) default
      = olds.getD (olds.length - 1) default := getD_append_left _ _ _ hls
  have hset : (olds ++ sibs).set i (olds.getD (olds.length - 1) default)
      = olds.set i (olds.getD (olds.length - 1) default) ++ sibs :=
    List.set_append_left _ _ hi
  rw [hgd, hset]
  set O := olds.set i (olds.getD (olds.length - 1) default) with hO
  have hOlen : O.length = olds.length := by rw [hO]; simp
  have hOat : O.getD (olds.length - 1) default = olds.getD (olds.length - 1) default := by
    rcases eq_or_ne i (olds.length - 1) with heq | hne
    · subst heq
      rw [hO, List.getD_eq_getElem _ _ (by simp; omega), List.getElem_set_self]
    · rw [hO, List.getD_eq_getElem _ _ (by simp; omega), List.getElem_set_ne hne]
      exact (List.getD_eq_getElem olds default hls).symm
  have holds2 : swapRemove olds i = O.dropLast := by
    unfold swapRemove
    rw [getLast_getD_eq_getD, hO]
  rcases eq_or_ne sibs [] with rfl | hs
  · refine ⟨[], List.Perm.refl _, ?_⟩
    rw [List.append_nil, List.append_nil]
    rw [show swapRemove O (olds.length - 1)
        = (O.set (olds.length - 1) (O.getLast?.getD default)).dropLast from rfl]
    rw [getLast_getD_eq_getD, hOlen, hOat]
    have hself : O.set (olds.length - 1) (olds.getD (olds.length - 1) default) = O := by
      have h0 := set_getD_self O (olds.length - 1) (by rw [hOlen]; omega)
      rw [hOat] at h0
      exact h0
    rw [hself, holds2]
  · have hlast : (O ++ sibs).getLast?.getD default = sibs.getLast?.getD default := by
      rw [List.getLast?_append_of_ne_nil _ hs]
    rw [show swapRemove (O ++ sibs) (olds.length - 1)
        = ((O ++ sibs).set (olds.length - 1) ((O ++ sibs).getLast?.getD default)).dropLast
      from rfl]
    rw [hlast]
    have hset2 : (O ++ sibs).set (olds.length - 1) (sibs.getLast?.getD default)
        = O.set (olds.length - 1) (sibs.getLast?.getD default) ++ sibs :=
      List.set_append_left _ _ (by rw [hOlen]; omega)
    rw [hset2, List.dropLast_append_of_ne_nil _ hs]
    have hsetlast : O.set (olds.length - 1) (sibs.getLast?.getD default)
        = O.take (olds.length - 1) ++ [sibs.getLast?.getD default] := by
      rw [List.set_eq_take_append_cons_drop, if_pos (by rw [hOlen]; omega)]
      have hdr : O.drop (olds.length - 1 + 1) = [] := by
        rw [List.drop_eq_nil_iff, hOlen]
        omega
      rw [hdr]
    have htake : O.take (olds.length - 1) = swapRemove olds i := by
      rw [holds2, List.dropLast_eq_take, hOlen]
    refine ⟨sibs.getLast?.getD default :: sibs.dropLast, ?_, ?_⟩
    · have hgls : sibs.getLast?.getD default = sibs.getLast hs := by
        rw [List.getLast?_eq_getLast _ hs]; rfl
      rw [hgls]
      have hrec : sibs.dropLast ++ [sibs.getLast hs] = sibs := List.dropLast_append_getLast hs
      have hp := (List.perm_append_singleton (sibs.getLast hs) sibs.dropLast).symm
      rw [hrec] at hp
      exact hp
    · rw [hsetlast, htake, List.append_assoc, List.singleton_append]

namespace bin_pack

/-- Characterization of the find_pos scan: either nothing strictly improved on
the accumulator (and it is returned unchanged), or the result is built from a
fitting free rectangle whose score pair strictly improves on the accumulator
and is a lexicographic minimum over every fitting free rectangle. -/
theorem find_posLoop_spec (w h : Int) (l : List rect) (acc : posResult) :
    (find_posLoop w h l acc = acc ∧
      ∀ r ∈ l, fits r w h → ¬lexLt (spPair r w h) (acc.s1, acc.s2)) ∨
    (∃ F ∈ l, fits F w h ∧
      find_posLoop w h l acc =
        ⟨{ x := F.x, y := F.y, width := w, height := h },
          (spPair F w h).1, (spPair F w h).2⟩ ∧
      lexLt (spPair F w h) (acc.s1, acc.s2) ∧
      ∀ r ∈ l, fits r w h → ¬lexLt (spPair r w h) (spPair F w h)) := by
  induction l generalizing acc with
  | nil => left; exact ⟨rfl, by simp⟩
  | cons r rest ih =>
    by_cases hfit : fits r w h
    · by_cases himp : lexLt (spPair r w h) (acc.s1, acc.s2)
      · -- the head strictly improves: recurse with the head as accumulator
        have hunf : find_posLoop w h (r :: rest) acc =
            find_posLoop w h rest
              ⟨{ x := r.x, y := r.y, width := w, height := h },
                (spPair r w h).1, (spPair r w h).2⟩ := by
          conv_lhs => rw [find_posLoop]
          rw [if_pos hfit, if_pos himp]
        rcases ih ⟨{ x := r.x, y := r.y, width := w, height := h },
            (spPair r w h).1, (spPair r w h).2⟩ with ⟨heq, hmin⟩ | ⟨F, hF, hFfit, heq, hlt, hmin⟩
        · right
          refine ⟨r, List.mem_cons_self r rest, hfit, by rw [hunf, heq], himp, ?_⟩
          intro q hq hqfit
          rcases List.mem_cons.mp hq with hq | hq
          · subst hq; simp [lexLt]
          · exact hmin q hq hqfit
        · right
          refine ⟨F, List.mem_cons_of_mem r hF, hFfit, by rw [hunf, heq], ?_, ?_⟩
          · simp only [lexLt] at hlt himp ⊢
            omega
          · intro q hq hqfit
            rcases List.mem_cons.mp hq with hq | hq
            · subst hq
              simp only [lexLt] at hlt ⊢
              omega
            · exact hmin q hq hqfit
      · -- the head fits but does not strictly improve
        have hunf : find_posLoop w h (r :: rest) acc = find_posLoop w h rest acc := by
          conv_lhs => rw [find_posLoop]
          rw [if_pos hfit, if_neg himp]
        rcases ih acc with ⟨heq, hmin⟩ | ⟨F, hF, hFfit, heq, hlt, hmin⟩
        · left
          refine ⟨by rw [hunf, heq], ?_⟩
          intro q hq hqfit
          rcases List.mem_cons.mp hq with hq | hq
          · subst hq; exact himp
          · exact hmin q hq hqfit
        · right
          refine ⟨F, List.mem_cons_of_mem r hF, hFfit, by rw [hunf, heq], hlt, ?_⟩
          intro q hq hqfit
          rcases List.mem_cons.mp hq with hq | hq
          · subst hq
            simp only [lexLt] at hlt himp ⊢
            omega
          · exact hmin q hq hqfit
    · -- the head does not fit
      have hunf : find_posLoop w h (r :: rest) acc = find_posLoop w h rest acc := by
        conv_lhs => rw [find_posLoop]
        rw [if_neg hfit]
      rcases ih acc with ⟨heq, hmin⟩ | ⟨F, hF, hFfit, heq, hlt, hmin⟩
      · left
        refine ⟨by rw [hunf, heq], ?_⟩
        intro q hq hqfit
        rcases List.mem_cons.mp hq with hq | hq
        · subst hq; exact absurd hqfit hfit
        · exact hmin q hq hqfit
      · right
        refine ⟨F, List.mem_cons_of_mem r hF, hFfit, by rw [hunf, heq], hlt, ?_⟩
        intro q hq hqfit
        rcases List.mem_cons.mp hq with hq | hq
        · subst hq; exact absurd hqfit hfit
        · exact hmin q hq hqfit

/-- When no free rectangle fits, find_pos returns the zero node and both
sentinel scores. -/
theorem find_pos_no_fit (self : bin_pack) (w h : Int)
    (hnf : ∀ r ∈ self.free_rects, ¬fits r w h) :
    find_pos self w h = ⟨{}, intMax, intMax⟩ := by
  unfold find_pos
  rcases find_posLoop_spec w h self.free_rects ⟨{}, intMax, intMax⟩ with
    ⟨heq, _⟩ | ⟨F, hF, hFfit, _, _, _⟩
  · exact heq
  · exact absurd hFfit (hnf F hF)

/-- When the scan result has nonzero height, it was produced from a fitting
free rectangle whose top-left corner it shares, with the requested size, and
its score pair is a lexicographic minimum over all fitting free rectangles. -/
theorem find_pos_commit (self : bin_pack) (w h : Int)
    (hcommit : (find_pos self w h).node.height ≠ 0) :
    ∃ F ∈ self.free_rects, fits F w h ∧
      find_pos self w h =
        ⟨{ x := F.x, y := F.y, width := w, height := h },
          (spPair F w h).1, (spPair F w h).2⟩ ∧
      ∀ r ∈ self.free_rects, fits r w h → ¬lexLt (spPair r w h) (spPair F w h) := by
  unfold find_pos at hcommit ⊢
  rcases find_posLoop_spec w h self.free_rects ⟨{}, intMax, intMax⟩ with
    ⟨heq, _⟩ | ⟨F, hF, hFfit, heq, _, hmin⟩
  · rw [heq] at hcommit
    simp at hcommit
  · exact ⟨F, hF, hFfit, heq, hmin⟩

theorem insert_newLoop_exit {nf : freshList} {nr : rect} {i : Nat}
    (h : ¬i < nf.last_size) :
    insert_newLoop nf nr i = ⟨nf.last_size, nf.rects ++ [nr]⟩ := by
  conv_lhs => rw [insert_newLoop]
  rw [if_neg h]

theorem insert_newLoop_drop {nf : freshList} {nr : rect} {i : Nat}
    (h : i < nf.last_size) (hc : nr.contained_in (nf.rects.getD i default)) :
    insert_newLoop nf nr i = nf := by
  conv_lhs => rw [insert_newLoop]
  rw [if_pos h, if_pos hc]

theorem insert_newLoop_remove {nf : freshList} {nr : rect} {i : Nat}
    (h : i < nf.last_size) (hc1 : ¬nr.contained_in (nf.rects.getD i default))
    (hc2 : (nf.rects.getD i default).contained_in nr) :
    insert_newLoop nf nr i =
      insert_newLoop
        ⟨nf.last_size - 1,
          swapRemove (nf.rects.set i (nf.rects.getD (nf.last_size - 1) default))
            (nf.last_size - 1)⟩ nr i := by
  conv_lhs => rw [insert_newLoop]
  rw [if_pos h, if_neg hc1, if_pos hc2]

theorem insert_newLoop_adv {nf : freshList} {nr : rect} {i : Nat}
    (h : i < nf.last_size) (hc1 : ¬nr.contained_in (nf.rects.getD i default))
    (hc2 : ¬(nf.rects.getD i default).contained_in nr) :
    insert_newLoop nf nr i = insert_newLoop nf nr (i + 1) := by
  conv_lhs => rw [insert_newLoop]
  rw [if_pos h, if_neg hc1, if_neg hc2]

/-- Running the insert_new scan from slot `i` on a fresh list split into the
`olds` region (below `last_size`) and the `sibs` tail: the olds region only
loses elements, the tail is only permuted (with the new rectangle appended
exactly when it survived), and an appended rectangle is two-way
containment-free against every surviving old rectangle. -/
theorem insert_newLoop_spec_aux (n : Nat) :
    ∀ (olds sibs : List rect) (nr : rect) (i : Nat),
      olds.length - i ≤ n →
      i ≤ olds.length →
      (∀ r ∈ olds.take i, ¬nr.contained_in r ∧ ¬r.contained_in nr) →
      ∃ olds2 sibs2 : List rect,
        insert_newLoop ⟨olds.length, olds ++ sibs⟩ nr i = ⟨olds2.length, olds2 ++ sibs2⟩ ∧
        List.Subperm olds2 olds ∧
        (sibs2.Perm sibs ∨
          (sibs2.Perm (sibs ++ [nr]) ∧
            ∀ r ∈ olds2, ¬nr.contained_in r ∧ ¬r.contained_in nr)) := by
  induction n with
  | zero =>
    intro olds sibs nr i hn hi hpre
    have hieq : i = olds.length := by omega
    subst hieq
    refine ⟨olds, sibs ++ [nr], ?_, List.Subperm.refl _, Or.inr ⟨List.Perm.refl _, ?_⟩⟩
    · rw [insert_newLoop_exit (by simp), List.append_assoc]
    · intro r hr
      exact hpre r (by rw [List.take_length]; exact hr)
  | succ n ih =>
    intro olds sibs nr i hn hi hpre
    rcases Nat.lt_or_ge i olds.length with hlt | hge
    · have hcond : i < (⟨olds.length, olds ++ sibs⟩ : freshList).last_size := hlt
      have hri : ((⟨olds.length, olds ++ sibs⟩ : freshList)).rects.getD i default
          = olds.getD i default := getD_append_left _ _ _ hlt
      by_cases hc1 : nr.contained_in (olds.getD i default)
      · refine ⟨olds, sibs, ?_, List.Subperm.refl _, Or.inl (List.Perm.refl _)⟩
        rw [insert_newLoop_drop hcond (by rw [hri]; exact hc1)]
      · by_cases hc2 : (olds.getD i default).contained_in nr
        · -- removal: swap-dance out the old rectangle at slot i, recurse
          rw [insert_newLoop_remove hcond (by rw [hri]; exact hc1) (by rw [hri]; exact hc2)]
          obtain ⟨sibs2, hperm, heq⟩ := swap_dance olds sibs i hlt
          have hlen : (swapRemove olds i).length = olds.length - 1 :=
            length_swapRemove olds i
          have hstate : (⟨olds.length - 1,
              swapRemove ((olds ++ sibs).set i ((olds ++ sibs).getD (olds.length - 1) default))
                (olds.length - 1)⟩ : freshList)
              = ⟨(swapRemove olds i).length, swapRemove olds i ++ sibs2⟩ := by
            rw [heq, hlen]
          simp only [hstate]
          obtain ⟨olds2, sibs3, hres, hsub, hcase⟩ :=
            ih (swapRemove olds i) sibs2 nr i (by omega) (by omega)
              (by
                rw [take_swapRemove olds i hlt]
                exact hpre)
          refine ⟨olds2, sibs3, hres, hsub.trans (swapRemove_subperm olds i), ?_⟩
          rcases hcase with hcase | ⟨hcase, hfree⟩
          · exact Or.inl (hcase.trans hperm)
          · exact Or.inr ⟨hcase.trans (hperm.append_right [nr]), hfree⟩
        · -- advance
          rw [insert_newLoop_adv hcond (by rw [hri]; exact hc1) (by rw [hri]; exact hc2)]
          exact ih olds sibs nr (i + 1) (by omega) (by omega)
            (by
              intro r hr
              rw [take_succ_getD olds i hlt] at hr
              rcases List.mem_append.mp hr with hr | hr
              · exact hpre r hr
              · rcases List.mem_singleton.mp hr with rfl
                exact ⟨hc1, hc2⟩)
    · -- the scan is already past the olds region: append
      refine ⟨olds, sibs ++ [nr], ?_, List.Subperm.refl _, Or.inr ⟨List.Perm.refl _, ?_⟩⟩
      · rw [insert_newLoop_exit (by simp; omega), List.append_assoc]
      · intro r hr
        exact hpre r (by rw [List.take_of_length_le hge]; exact hr)

/-- `insert_new` under the olds/sibs split: degenerate rectangles change
nothing; otherwise the insert_newLoop characterization applies. -/
theorem insert_new_spec (olds sibs : List rect) (nr : rect) :
    ∃ olds2 sibs2 : List rect,
      insert_new ⟨olds.length, olds ++ sibs⟩ nr = ⟨olds2.length, olds2 ++ sibs2⟩ ∧
      List.Subperm olds2 olds ∧
      (sibs2.Perm sibs ∨
        (sibs2.Perm (sibs ++ [nr]) ∧
          ∀ r ∈ olds2, ¬nr.contained_in r ∧ ¬r.contained_in nr)) := by
  unfold insert_new
  split
  · exact ⟨olds, sibs, rfl, List.Subperm.refl _, Or.inl (List.Perm.refl _)⟩
  · exact insert_newLoop_spec_aux olds.length olds sibs nr 0 (by omega) (by omega) (by simp)

theorem ptDisjoint_of_not_splitConds {f u : rect} (h : ¬splitConds f u) :
    ptDisjoint f u := by
  intro px py hc
  obtain ⟨h1, h2⟩ := hc
  unfold rect.containsPt at h1 h2
  unfold splitConds at h
  omega

theorem residual_contained {free used r : rect} (hsc : splitConds free used)
    (hr : residualOf r free used) : r.contained_in free := by
  unfold splitConds at hsc
  rcases hr with ⟨g, rfl⟩ | ⟨g, rfl⟩ | ⟨g, rfl⟩ | ⟨g, rfl⟩ <;>
    · unfold rect.contained_in
      simp only [topRes, botRes, leftRes, rightRes]
      omega

theorem residual_ptDisjoint_used {free used r : rect} (hsc : splitConds free used)
    (hr : residualOf r free used) : ptDisjoint r used := by
  unfold splitConds at hsc
  rcases hr with ⟨g, rfl⟩ | ⟨g, rfl⟩ | ⟨g, rfl⟩ | ⟨g, rfl⟩ <;>
    · intro px py hc
      obtain ⟨h1, h2⟩ := hc
      unfold rect.containsPt at h1 h2
      simp only [topRes, botRes, leftRes, rightRes] at h1
      omega

/-- Distinct residual kinds of one split are distinct rectangles and never
contain one another. -/
theorem residual_CF {free used f g : rect} (hsc : splitConds free used)
    (hf : residualOf f free used) (hg : residualOf g free used) (hne : f ≠ g) :
    ¬f.contained_in g := by
  unfold splitConds at hsc
  rcases hf with ⟨gf, rfl⟩ | ⟨gf, rfl⟩ | ⟨gf, rfl⟩ | ⟨gf, rfl⟩ <;>
    rcases hg with ⟨gg, rfl⟩ | ⟨gg, rfl⟩ | ⟨gg, rfl⟩ | ⟨gg, rfl⟩
  all_goals first
    | exact absurd rfl hne
    | · intro hcont
        unfold rect.contained_in at hcont
        simp only [topRes, botRes, leftRes, rightRes] at hcont
        omega

theorem topRes_ne_botRes {free used : rect} (hsc : splitConds free used) :
    topRes free used ≠ botRes free used := by
  intro h
  have hy := congrArg rect.y h
  simp only [topRes, botRes] at hy
  unfold splitConds at hsc
  omega

theorem topRes_ne_leftRes {free used : rect} (hsc : splitConds free used) :
    topRes free used ≠ leftRes free used := by
  intro h
  have hw := congrArg rect.width h
  simp only [topRes, leftRes] at hw
  unfold splitConds at hsc
  omega

theorem topRes_ne_rightRes {free used : rect} (hsc : splitConds free used) :
    topRes free used ≠ rightRes free used := by
  intro h
  have hx := congrArg rect.x h
  simp only [topRes, rightRes] at hx
  unfold splitConds at hsc
  omega

theorem botRes_ne_leftRes {free used : rect} (hsc : splitConds free used) :
    botRes free used ≠ leftRes free used := by
  intro h
  have hw := congrArg rect.width h
  simp only [botRes, leftRes] at hw
  unfold splitConds at hsc
  omega

theorem botRes_ne_rightRes {free used : rect} (hsc : splitConds free used) :
    botRes free used ≠ rightRes free used := by
  intro h
  have hx := congrArg rect.x h
  simp only [botRes, rightRes] at hx
  unfold splitConds at hsc
  omega

theorem leftRes_ne_rightRes {free used : rect} (hsc : splitConds free used) :
    leftRes free used ≠ rightRes free used := by
  intro h
  have hx := congrArg rect.x h
  simp only [leftRes, rightRes] at hx
  unfold splitConds at hsc
  omega

theorem CFrel_symm : ∀ {a b : rect}, CFrel a b → CFrel b a := by
  intro a b hab
  exact ⟨hab.2, hab.1⟩

theorem subperm_append {a b c d : List rect} (h1 : List.Subperm a b)
    (h2 : List.Subperm c d) : List.Subperm (a ++ c) (b ++ d) := by
  obtain ⟨l, hl, hsl⟩ := h1
  obtain ⟨m, hm, hsm⟩ := h2
  exact ⟨l ++ m, hl.append hm, hsl.append hsm⟩

/-- Folding insert_new over a list of pairwise-distinct residuals of one
split: the olds region only shrinks, the fresh tail holds only residuals, and
two-way non-containment of the whole list is preserved. -/
theorem insert_new_chain {free used : rect} (hsc : splitConds free used)
    (rects0 : List rect) :
    ∀ (resids olds sibs : List rect),
      List.Subperm olds rects0 →
      (∀ s ∈ sibs, residualOf s free used) →
      (∀ r ∈ resids, residualOf r free used) →
      (∀ s ∈ sibs, ∀ r ∈ resids, s ≠ r) →
      List.Pairwise (fun a b => a ≠ b) resids →
      (List.Pairwise CFrel rects0 → List.Pairwise CFrel (olds ++ sibs)) →
      ∃ olds2 sibs2 : List rect,
        List.foldl insert_new ⟨olds.length, olds ++ sibs⟩ resids
          = ⟨olds2.length, olds2 ++ sibs2⟩ ∧
        List.Subperm olds2 rects0 ∧
        (∀ s ∈ sibs2, residualOf s free used) ∧
        (List.Pairwise CFrel rects0 → List.Pairwise CFrel (olds2 ++ sibs2)) := by
  intro resids
  induction resids with
  | nil =>
    intro olds sibs hsub hsibs _ _ _ hcf
    exact ⟨olds, sibs, rfl, hsub, hsibs, hcf⟩
  | cons nr rest ih =>
    intro olds sibs hsub hsibs hres hdistinct hpw hcf
    obtain ⟨olds2, sibs2, heq, hsub2, hcase⟩ := insert_new_spec olds sibs nr
    have hnr : residualOf nr free used := hres nr (List.mem_cons_self _ _)
    have hmem2 : ∀ s ∈ sibs2, s = nr ∨ s ∈ sibs := by
      intro s hs
      rcases hcase with hp | ⟨hp, _⟩
      · exact Or.inr (hp.subset hs)
      · rcases List.mem_append.mp (hp.subset hs) with h | h
        · exact Or.inr h
        · exact Or.inl (List.mem_singleton.mp h)
    have hsibs2 : ∀ s ∈ sibs2, residualOf s free used := by
      intro s hs
      rcases hmem2 s hs with rfl | hs2
      · exact hnr
      · exact hsibs s hs2
    have hcf2 : List.Pairwise CFrel rects0 → List.Pairwise CFrel (olds2 ++ sibs2) := by
      intro hp
      have hall := hcf hp
      obtain ⟨holds, hsl, hcross⟩ := List.pairwise_append.mp hall
      rcases hcase with hperm | ⟨hperm, hfree⟩
      · exact pairwise_of_subperm CFrel_symm
          (subperm_append hsub2 hperm.subperm) hall
      · have hperm2 : (olds2 ++ sibs2).Perm (olds2 ++ (sibs ++ [nr])) :=
          List.Perm.append_left olds2 hperm
        apply (hperm2.pairwise_iff CFrel_symm).mpr
        rw [List.pairwise_append]
        refine ⟨pairwise_of_subperm CFrel_symm hsub2 holds, ?_, ?_⟩
        · rw [List.pairwise_append]
          refine ⟨hsl, List.pairwise_singleton _ _, ?_⟩
          intro s hs r hr
          rcases List.mem_singleton.mp hr with rfl
          have hs_ne : s ≠ r := hdistinct s hs r (List.mem_cons_self _ _)
          exact ⟨residual_CF hsc (hsibs s hs) hnr hs_ne,
            residual_CF hsc hnr (hsibs s hs) hs_ne.symm⟩
        · intro o ho r hr
          rcases List.mem_append.mp hr with hr | hr
          · exact hcross o (hsub2.subset ho) r hr
          · rcases List.mem_singleton.mp hr with rfl
            have hf := hfree o ho
            exact ⟨hf.2, hf.1⟩
    rw [List.foldl_cons, heq]
    refine ih olds2 sibs2 (hsub2.trans hsub) hsibs2
      (fun r hr => hres r (List.mem_cons_of_mem _ hr)) ?_ (List.pairwise_cons.mp hpw).2 hcf2
    intro s hs r hr
    rcases hmem2 s hs with rfl | hs2
    · exact (List.pairwise_cons.mp hpw).1 r hr
    · exact hdistinct s hs2 r (List.mem_cons_of_mem _ hr)

theorem split_free_node_no_overlap {nf : freshList} {free used : rect}
    (h : ¬splitConds free used) :
    split_free_node nf free used = (false, nf) := by
  unfold split_free_node
  rw [if_pos]
  unfold splitConds at h
  omega

/-- Splitting an overlapped free rectangle: the result is the old fresh list
with zero or more elements removed, extended by residual rectangles of this
split, and two-way non-containment of the fresh list is preserved. -/
theorem split_free_node_overlap (ls0 : Nat) (rects : List rect) {free used : rect}
    (hsc : splitConds free used) :
    ∃ nf2 : freshList,
      split_free_node ⟨ls0, rects⟩ free used = (true, nf2) ∧
      (∀ r ∈ nf2.rects, r ∈ rects ∨ residualOf r free used) ∧
      (List.Pairwise CFrel rects → List.Pairwise CFrel nf2.rects) := by
  have hsat : ¬(used.x ≥ free.x + free.width ∨ used.x + used.width ≤ free.x ∨
      used.y ≥ free.y + free.height ∨ used.y + used.height ≤ free.y) := by
    unfold splitConds at hsc
    omega
  have hx : used.x < free.x + free.width ∧ used.x + used.width > free.x :=
    ⟨hsc.1, hsc.2.1⟩
  have hy : used.y < free.y + free.height ∧ used.y + used.height > free.y :=
    ⟨hsc.2.2.1, hsc.2.2.2⟩
  have heq : split_free_node ⟨ls0, rects⟩ free used = (true,
      List.foldl insert_new ⟨rects.length, rects⟩
        ((if used.y > free.y then [topRes free used] else []) ++
         (if used.y + used.height < free.y + free.height then [botRes free used] else []) ++
         ((if used.x > free.x then [leftRes free used] else []) ++
          (if used.x + used.width < free.x + free.width then [rightRes free used] else [])))) := by
    unfold split_free_node
    rw [if_neg hsat]
    by_cases htop : used.y > free.y <;>
      by_cases hbot : used.y + used.height < free.y + free.height <;>
        by_cases hleft : used.x > free.x <;>
          by_cases hright : used.x + used.width < free.x + free.width <;>
            simp [htop, hbot, hleft, hright, hx, hy, hsc.1, hsc.2.1, hsc.2.2.1, hsc.2.2.2,
              topRes, botRes, leftRes, rightRes]
  set L := (if used.y > free.y then [topRes free used] else []) ++
      (if used.y + used.height < free.y + free.height then [botRes free used] else []) ++
      ((if used.x > free.x then [leftRes free used] else []) ++
       (if used.x + used.width < free.x + free.width then [rightRes free used] else []))
    with hL
  have hres : ∀ r ∈ L, residualOf r free used := by
    intro r hr
    rw [hL] at hr
    rcases List.mem_append.mp hr with hr1 | hr2
    · rcases List.mem_append.mp hr1 with hr3 | hr4
      · by_cases hc : used.y > free.y
        · rw [if_pos hc] at hr3
          rcases List.mem_singleton.mp hr3 with rfl
          exact Or.inl ⟨hc, rfl⟩
        · rw [if_neg hc] at hr3
          simp at hr3
      · by_cases hc : used.y + used.height < free.y + free.height
        · rw [if_pos hc] at hr4
          rcases List.mem_singleton.mp hr4 with rfl
          exact Or.inr (Or.inl ⟨hc, rfl⟩)
        · rw [if_neg hc] at hr4
          simp at hr4
    · rcases List.mem_append.mp hr2 with hr3 | hr4
      · by_cases hc : used.x > free.x
        · rw [if_pos hc] at hr3
          rcases List.mem_singleton.mp hr3 with rfl
          exact Or.inr (Or.inr (Or.inl ⟨hc, rfl⟩))
        · rw [if_neg hc] at hr3
          simp at hr3
      · by_cases hc : used.x + used.width < free.x + free.width
        · rw [if_pos hc] at hr4
          rcases List.mem_singleton.mp hr4 with rfl
          exact Or.inr (Or.inr (Or.inr ⟨hc, rfl⟩))
        · rw [if_neg hc] at hr4
          simp at hr4
  have hpw : List.Pairwise (fun a b : rect => a ≠ b) L := by
    rw [hL]
    apply List.pairwise_append.mpr
    refine ⟨?_, ?_, ?_⟩
    · apply List.pairwise_append.mpr
      refine ⟨?_, ?_, ?_⟩
      · split <;> simp
      · split <;> simp
      · intro a ha b hb
        by_cases hc1 : used.y > free.y
        · rw [if_pos hc1] at ha
          rcases List.mem_singleton.mp ha with rfl
          by_cases hc2 : used.y + used.height < free.y + free.height
          · rw [if_pos hc2] at hb
            rcases List.mem_singleton.mp hb with rfl
            exact topRes_ne_botRes hsc
          · rw [if_neg hc2] at hb; simp at hb
        · rw [if_neg hc1] at ha; simp at ha
    · apply List.pairwise_append.mpr
      refine ⟨?_, ?_, ?_⟩
      · split <;> simp
      · split <;> simp
      · intro a ha b hb
        by_cases hc1 : used.x > free.x
        · rw [if_pos hc1] at ha
          rcases List.mem_singleton.mp ha with rfl
          by_cases hc2 : used.x + used.width < free.x + free.width
          · rw [if_pos hc2] at hb
            rcases List.mem_singleton.mp hb with rfl
            exact leftRes_ne_rightRes hsc
          · rw [if_neg hc2] at hb; simp at hb
        · rw [if_neg hc1] at ha; simp at ha
    · intro a ha b hb
      have hakind : a = topRes free used ∨ a = botRes free used := by
        rcases List.mem_append.mp ha with h1 | h2
        · by_cases hc : used.y > free.y
          · rw [if_pos hc] at h1; exact Or.inl (List.mem_singleton.mp h1)
          · rw [if_neg hc] at h1; simp at h1
        · by_cases hc : used.y + used.height < free.y + free.height
          · rw [if_pos hc] at h2; exact Or.inr (List.mem_singleton.mp h2)
          · rw [if_neg hc] at h2; simp at h2
      have hbkind : b = leftRes free used ∨ b = rightRes free used := by
        rcases List.mem_append.mp hb with h1 | h2
        · by_cases hc : used.x > free.x
          · rw [if_pos hc] at h1; exact Or.inl (List.mem_singleton.mp h1)
          · rw [if_neg hc] at h1; simp at h1
        · by_cases hc : used.x + used.width < free.x + free.width
          · rw [if_pos hc] at h2; exact Or.inr (List.mem_singleton.mp h2)
          · rw [if_neg hc] at h2; simp at h2
      rcases hakind with rfl | rfl <;> rcases hbkind with rfl | rfl
      · exact topRes_ne_leftRes hsc
      · exact topRes_ne_rightRes hsc
      · exact botRes_ne_leftRes hsc
      · exact botRes_ne_rightRes hsc
  obtain ⟨olds2, sibs2, hfold, hsub2, hsibs2, hcf2⟩ :=
    insert_new_chain hsc rects L rects [] (List.Subperm.refl _) (by simp) hres
      (by simp) hpw (by rw [List.append_nil]; exact id)
  rw [List.append_nil] at hfold
  refine ⟨⟨olds2.length, olds2 ++ sibs2⟩, ?_, ?_, ?_⟩
  · rw [heq, hfold]
  · intro r hr
    rcases List.mem_append.mp hr with hr | hr
    · exact Or.inl (hsub2.subset hr)
    · exact Or.inr (hsibs2 r hr)
  · exact hcf2

theorem pruneInner_exit {old : rect} {nf : List rect} {j : Nat} (h : ¬j < nf.length) :
    pruneInner old nf j = nf := by
  conv_lhs => rw [pruneInner]
  rw [if_neg h]

theorem pruneInner_remove {old : rect} {nf : List rect} {j : Nat} (h : j < nf.length)
    (hc : (nf.getD j default).contained_in old) :
    pruneInner old nf j = pruneInner old (swapRemove nf j) j := by
  conv_lhs => rw [pruneInner]
  rw [if_pos h, if_pos hc]

theorem pruneInner_adv {old : rect} {nf : List rect} {j : Nat} (h : j < nf.length)
    (hc : ¬(nf.getD j default).contained_in old) :
    pruneInner old nf j = pruneInner old nf (j + 1) := by
  conv_lhs => rw [pruneInner]
  rw [if_pos h, if_neg hc]

/-- The prune inner loop only removes elements, and removes every new free
rectangle contained in the old one. -/
theorem pruneInner_spec_aux (n : Nat) :
    ∀ (old : rect) (nf : List rect) (j : Nat),
      nf.length - j ≤ n →
      (∀ r ∈ nf.take j, ¬r.contained_in old) →
      List.Subperm (pruneInner old nf j) nf ∧
      (∀ r ∈ pruneInner old nf j, ¬r.contained_in old) := by
  induction n with
  | zero =>
    intro old nf j hn hpre
    have hge : nf.length ≤ j := by omega
    rw [pruneInner_exit (by omega)]
    refine ⟨List.Subperm.refl _, ?_⟩
    intro r hr
    exact hpre r (by rw [List.take_of_length_le hge]; exact hr)
  | succ n ih =>
    intro old nf j hn hpre
    rcases Nat.lt_or_ge j nf.length with hlt | hge
    · by_cases hc : (nf.getD j default).contained_in old
      · rw [pruneInner_remove hlt hc]
        have hlen : (swapRemove nf j).length = nf.length - 1 := length_swapRemove nf j
        obtain ⟨hsub, hprop⟩ := ih old (swapRemove nf j) j (by omega)
          (by rw [take_swapRemove nf j hlt]; exact hpre)
        exact ⟨hsub.trans (swapRemove_subperm nf j), hprop⟩
      · rw [pruneInner_adv hlt hc]
        refine ih old nf (j + 1) (by omega) ?_
        intro r hr
        rw [take_succ_getD nf j hlt] at hr
        rcases List.mem_append.mp hr with hr | hr
        · exact hpre r hr
        · rcases List.mem_singleton.mp hr with rfl
          exact hc
    · rw [pruneInner_exit (by omega)]
      refine ⟨List.Subperm.refl _, ?_⟩
      intro r hr
      exact hpre r (by rw [List.take_of_length_le hge]; exact hr)

theorem pruneInner_spec (old : rect) (nf : List rect) :
    List.Subperm (pruneInner old nf 0) nf ∧
    (∀ r ∈ pruneInner old nf 0, ¬r.contained_in old) :=
  pruneInner_spec_aux nf.length old nf 0 (by omega) (by simp)

/-- The prune outer loop only removes new free rectangles, and in the end no
surviving new free rectangle is contained in any of the old free rectangles. -/
theorem pruneOuter_spec : ∀ (free nf : List rect),
    List.Subperm (pruneOuter nf free) nf ∧
    (∀ r ∈ pruneOuter nf free, ∀ f ∈ free, ¬r.contained_in f) := by
  intro free
  induction free with
  | nil =>
    intro nf
    exact ⟨List.Subperm.refl _, by simp⟩
  | cons f rest ih =>
    intro nf
    rw [pruneOuter]
    obtain ⟨hsub1, hprop1⟩ := pruneInner_spec f nf
    obtain ⟨hsub2, hprop2⟩ := ih (pruneInner f nf 0)
    refine ⟨hsub2.trans hsub1, ?_⟩
    intro r hr g hg
    rcases List.mem_cons.mp hg with rfl | hg
    · exact hprop1 r (hsub2.subset hr)
    · exact hprop2 r hr g hg

theorem placeLoop_exit {free : List rect} {nf : freshList} {node : rect} {i : Nat}
    (h : ¬i < free.length) :
    placeLoop free nf node i = (free, nf) := by
  conv_lhs => rw [placeLoop]
  rw [if_neg h]

theorem placeLoop_step_true {free : List rect} {nf nf2 : freshList} {node : rect} {i : Nat}
    (h : i < free.length)
    (hres : split_free_node nf (free.getD i default) node = (true, nf2)) :
    placeLoop free nf node i = placeLoop (swapRemove free i) nf2 node i := by
  conv_lhs => rw [placeLoop]
  rw [if_pos h, hres]
  simp

theorem placeLoop_step_false {free : List rect} {nf : freshList} {node : rect} {i : Nat}
    (h : i < free.length) (hsc : ¬splitConds (free.getD i default) node) :
    placeLoop free nf node i = placeLoop free nf node (i + 1) := by
  conv_lhs => rw [placeLoop]
  rw [if_pos h, split_free_node_no_overlap hsc]
  simp

/-- Invariant of the place free-list loop: survivors come from the original
free list and were SAT-rejected against the node, and the fresh list holds
only containment-free residuals of overlapped original free rectangles. -/
theorem placeLoop_spec_aux (n : Nat) :
    ∀ (free : List rect) (nf : freshList) (node : rect) (i : Nat) (orig : List rect),
      free.length - i ≤ n →
      (∀ f ∈ free, f ∈ orig) →
      (∀ f ∈ free.take i, ¬splitConds f node) →
      (∀ r ∈ nf.rects, residualOrigin orig node r) →
      List.Pairwise CFrel nf.rects →
      List.Subperm (placeLoop free nf node i).1 free ∧
      (∀ f ∈ (placeLoop free nf node i).1, ¬splitConds f node) ∧
      (∀ r ∈ (placeLoop free nf node i).2.rects, residualOrigin orig node r) ∧
      List.Pairwise CFrel (placeLoop free nf node i).2.rects := by
  induction n with
  | zero =>
    intro free nf node i orig hn hmem hpre hnf hcf
    have hge : free.length ≤ i := by omega
    rw [placeLoop_exit (by omega)]
    refine ⟨List.Subperm.refl _, ?_, hnf, hcf⟩
    intro f hf
    exact hpre f (by rw [List.take_of_length_le hge]; exact hf)
  | succ n ih =>
    intro free nf node i orig hn hmem hpre hnf hcf
    rcases Nat.lt_or_ge i free.length with hlt | hge
    · by_cases hsc : splitConds (free.getD i default) node
      · obtain ⟨nf2, heqn, hmem2, hcfimp⟩ :=
          split_free_node_overlap nf.last_size nf.rects hsc
        rw [placeLoop_step_true hlt heqn]
        have hFin : free.getD i default ∈ free := by
          rw [List.getD_eq_getElem free default hlt]
          exact List.getElem_mem hlt
        obtain ⟨hsub, hrest⟩ := ih (swapRemove free i) nf2 node i orig
          (by rw [length_swapRemove]; omega)
          (fun f hf => hmem f (mem_swapRemove free i hf))
          (by rw [take_swapRemove free i hlt]; exact hpre)
          (by
            intro r hr
            rcases hmem2 r hr with hr2 | hr2
            · exact hnf r hr2
            · exact ⟨free.getD i default, hmem _ hFin, hsc, hr2⟩)
          (hcfimp hcf)
        exact ⟨hsub.trans (swapRemove_subperm free i), hrest⟩
      · rw [placeLoop_step_false hlt hsc]
        refine ih free nf node (i + 1) orig (by omega) hmem ?_ hnf hcf
        intro f hf
        rw [take_succ_getD free i hlt] at hf
        rcases List.mem_append.mp hf with hf | hf
        · exact hpre f hf
        · rcases List.mem_singleton.mp hf with rfl
          exact hsc
    · rw [placeLoop_exit (by omega)]
      refine ⟨List.Subperm.refl _, ?_, hnf, hcf⟩
      intro f hf
      exact hpre f (by rw [List.take_of_length_le hge]; exact hf)

theorem CFrel_symmetric : Symmetric CFrel := by
  intro a b hab
  exact ⟨hab.2, hab.1⟩

/-- Characterization of `place`: the node is appended to the used list, and
every rectangle of the new free list either is an original free rectangle that
does not intersect the node, or is a residual of an overlapped original free
rectangle; moreover two-way non-containment of the free list is preserved. -/
theorem place_spec (self : bin_pack) (node : rect)
    (hnf : self.new_free_rects = []) :
    (place self node).used_rects = self.used_rects ++ [node] ∧
    (place self node).bin_width = self.bin_width ∧
    (place self node).bin_height = self.bin_height ∧
    (place self node).new_free_rects = [] ∧
    (∀ f ∈ (place self node).free_rects,
      (f ∈ self.free_rects ∧ ¬splitConds f node) ∨
        residualOrigin self.free_rects node f) ∧
    (List.Pairwise CFrel self.free_rects →
      List.Pairwise CFrel (place self node).free_rects) := by
  unfold place
  obtain ⟨hsub, hnosc, hresid, hcfnew⟩ :=
    placeLoop_spec_aux self.free_rects.length self.free_rects
      ⟨self.new_free_rects_last_size, self.new_free_rects⟩ node 0 self.free_rects
      (by omega) (fun f hf => hf) (by simp)
      (by rw [hnf]; intro r hr; simp at hr) (by rw [hnf]; exact List.Pairwise.nil)
  obtain ⟨hpsub, hpprop⟩ := pruneOuter_spec (placeLoop self.free_rects
      ⟨self.new_free_rects_last_size, self.new_free_rects⟩ node 0).1
    (placeLoop self.free_rects
      ⟨self.new_free_rects_last_size, self.new_free_rects⟩ node 0).2.rects
  refine ⟨rfl, rfl, rfl, rfl, ?_, ?_⟩
  · intro f hf
    simp only [List.mem_append] at hf
    rcases hf with hf | hf
    · exact Or.inl ⟨hsub.subset hf, hnosc f hf⟩
    · exact Or.inr (hresid f (hpsub.subset hf))
  · intro hcf
    rw [List.pairwise_append]
    refine ⟨pairwise_of_subperm (fun hab => CFrel_symmetric hab) hsub hcf,
      pairwise_of_subperm (fun hab => CFrel_symmetric hab) hpsub hcfnew, ?_⟩
    intro f hf p hp
    have hfin := hsub.subset hf
    have hfnosc := hnosc f hf
    obtain ⟨F, hF, hFsc, hFres⟩ := hresid p (hpsub.subset hp)
    constructor
    · -- f is not contained in the residual p
      intro hcont
      have hfF : f.contained_in F := contained_in_trans hcont (residual_contained hFsc hFres)
      have hne : f ≠ F := by
        intro he
        rw [he] at hfnosc
        exact hfnosc hFsc
      exact (hcf.forall CFrel_symmetric hfin hF hne).1 hfF
    · -- the residual p is not contained in f: prune removed such rectangles
      exact hpprop p hp f hf

theorem masterInv_init (w h : Int) : MasterInv (init w h) := by
  refine ⟨rfl, List.pairwise_singleton _ _, List.Pairwise.nil, ?_, ?_⟩
  · intro f _ u hu
    simp [init] at hu
  · intro f hf
    simp only [init, List.mem_singleton] at hf
    subst hf
    unfold rect.contained_in
    simp [init]

theorem node_ptSubset {F : rect} {w h : Int} (hfit : fits F w h) :
    ptSubset { x := F.x, y := F.y, width := w, height := h } F := by
  intro px py hp
  unfold rect.containsPt at hp ⊢
  simp only at hp
  unfold fits at hfit
  omega

theorem masterInv_insert (st : bin_pack) (w h : Int) (hinv : MasterInv st) :
    MasterInv (st.insert w h).2 := by
  obtain ⟨hnf, hcf, hused, hfu, hbound⟩ := hinv
  by_cases hh : (find_pos st w h).node.height = 0
  · have he : (st.insert w h).2 = st := by
      unfold insert
      rw [if_pos hh]
    rw [he]
    exact ⟨hnf, hcf, hused, hfu, hbound⟩
  · have he : (st.insert w h).2 = place st (find_pos st w h).node := by
      unfold insert
      rw [if_neg hh]
    rw [he]
    obtain ⟨F, hF, hfit, heqfp, _⟩ := find_pos_commit st w h hh
    obtain ⟨hpu, hpw, hph, hpn, hpf, hpcf⟩ := place_spec st (find_pos st w h).node hnf
    have hnodesub : ptSubset (find_pos st w h).node F := by
      rw [heqfp]
      exact node_ptSubset hfit
    refine ⟨hpn, hpcf hcf, ?_, ?_, ?_⟩
    · -- used rectangles stay pairwise point-disjoint
      rw [hpu, List.pairwise_append]
      refine ⟨hused, List.pairwise_singleton _ _, ?_⟩
      intro u hu v hv
      rcases List.mem_singleton.mp hv with rfl
      exact ptDisjoint_symm (ptDisjoint_mono_left hnodesub (hfu F hF u hu))
    · -- every new free rectangle is point-disjoint from every used rectangle
      intro f hf u hu
      rw [hpu] at hu
      rcases hpf f hf with ⟨hfin, hfsc⟩ | ⟨G, hG, hGsc, hGres⟩
      · rcases List.mem_append.mp hu with hu | hu
        · exact hfu f hfin u hu
        · rcases List.mem_singleton.mp hu with rfl
          exact ptDisjoint_of_not_splitConds hfsc
      · have hsubG : ptSubset f G := ptSubset_of_contained_in (residual_contained hGsc hGres)
        rcases List.mem_append.mp hu with hu | hu
        · exact ptDisjoint_mono_left hsubG (hfu G hG u hu)
        · rcases List.mem_singleton.mp hu with rfl
          exact residual_ptDisjoint_used hGsc hGres
    · -- every new free rectangle stays inside the bin
      intro f hf
      rw [hpw, hph]
      rcases hpf f hf with ⟨hfin, _⟩ | ⟨G, hG, hGsc, hGres⟩
      · exact hbound f hfin
      · exact contained_in_trans (residual_contained hGsc hGres) (hbound G hG)

theorem masterInv_reachable {st : bin_pack} (h : reachable st) : MasterInv st := by
  induction h with
  | init w h => exact masterInv_init w h
  | insert st w h _ ih => exact masterInv_insert st w h ih

/-- insert_new on a fresh list with empty scan region appends unconditionally
(the scan loop body never runs when last_size is zero). -/
theorem insert_new_concrete (l : List rect) (nr : rect)
    (hne : ¬(nr.width = 0 ∨ nr.height = 0)) :
    insert_new ⟨0, l⟩ nr = ⟨0, l ++ [nr]⟩ := by
  unfold insert_new
  rw [if_neg hne]
  exact insert_newLoop_exit (Nat.lt_irrefl 0)

/-- Splitting the full free rectangle of a fresh bin around a node at the
origin yields exactly the bottom and right residuals. -/
theorem split_origin (W H w h : Int) (hw : 0 < w) (hw2 : w < W) (hh : 0 < h)
    (hh2 : h < H) :
    split_free_node ⟨0, []⟩ ⟨0, 0, W, H⟩ ⟨0, 0, w, h⟩ =
      (true, ⟨0, [⟨0, h, W, H - h⟩, ⟨w, 0, W - w, H⟩]⟩) := by
  unfold split_free_node
  rw [if_neg (by dsimp only; omega)]
  dsimp only
  simp only [zero_add, List.length_nil]
  rw [if_pos (show (0 : Int) < W ∧ w > 0 by omega)]
  rw [if_neg (show ¬((0 : Int) > 0 ∧ (0 : Int) < H) by omega)]
  rw [if_pos (show h < H by omega)]
  rw [insert_new_concrete [] ⟨0, h, W, H - h⟩ (by dsimp only; omega)]
  simp only [List.nil_append]
  rw [if_pos (show (0 : Int) < H ∧ h > 0 by omega)]
  rw [if_neg (show ¬((0 : Int) > 0 ∧ (0 : Int) < W) by omega)]
  rw [if_pos (show w < W by omega)]
  rw [insert_new_concrete [⟨0, h, W, H - h⟩] ⟨w, 0, W - w, H⟩ (by dsimp only; omega)]
  simp

/-- find_pos on a fresh bin commits to the origin corner with the leftover
scores of the single full free rectangle. -/
theorem find_pos_fresh (W H w h : Int) (hw : 0 < w) (hw2 : w ≤ W) (hh : 0 < h)
    (hh2 : h ≤ H) (hWM : W < intMax) :
    find_pos (init W H) w h =
      ⟨⟨0, 0, w, h⟩, min |W - w| |H - h|, max |W - w| |H - h|⟩ := by
  have hfits : fits ⟨0, 0, W, H⟩ w h := ⟨hw2, hh2⟩
  have hlex : lexLt (spPair ⟨0, 0, W, H⟩ w h) (intMax, intMax) := by
    left
    show (spPair ⟨0, 0, W, H⟩ w h).1 < intMax
    simp only [spPair]
    rw [abs_of_nonneg (by omega : (0 : Int) ≤ W - w),
      abs_of_nonneg (by omega : (0 : Int) ≤ H - h)]
    omega
  unfold find_pos init
  dsimp only
  rw [find_posLoop, if_pos hfits, if_pos hlex, find_posLoop]
  simp [spPair]

/-- The place free-list loop on a fresh bin: the full free rectangle is split
away and replaced by its bottom and right residuals. -/
theorem placeLoop_origin (W H w h : Int) (hw : 0 < w) (hw2 : w < W) (hh : 0 < h)
    (hh2 : h < H) :
    placeLoop [⟨0, 0, W, H⟩] ⟨0, []⟩ ⟨0, 0, w, h⟩ 0 =
      ([], ⟨0, [⟨0, h, W, H - h⟩, ⟨w, 0, W - w, H⟩]⟩) := by
  rw [placeLoop_step_true (by simp) (split_origin W H w h hw hw2 hh hh2)]
  rw [show swapRemove [(⟨0, 0, W, H⟩ : rect)] 0 = [] from rfl]
  exact placeLoop_exit (by simp)

/-- Inserting a strictly smaller rectangle into a fresh bin commits it at the
origin and leaves the bottom and right residuals as the free list. -/
theorem insert_fresh (W H w h : Int) (hw : 0 < w) (hw2 : w < W) (hh : 0 < h)
    (hh2 : h < H) (hWM : W < intMax) :
    insert (init W H) w h =
      (⟨0, 0, w, h⟩,
        { bin_width := W, bin_height := H,
          new_free_rects_last_size := 0, new_free_rects := [],
          used_rects := [⟨0, 0, w, h⟩],
          free_rects := [⟨0, h, W, H - h⟩, ⟨w, 0, W - w, H⟩] }) := by
  have hfp := find_pos_fresh W H w h hw (le_of_lt hw2) hh (le_of_lt hh2) hWM
  unfold insert
  rw [hfp]
  dsimp only
  rw [if_neg (by omega : ¬(h = 0))]
  unfold place
  dsimp only [init]
  rw [placeLoop_origin W H w h hw hw2 hh hh2]
  dsimp only
  rw [show pruneOuter [⟨0, h, W, H - h⟩, ⟨w, 0, W - w, H⟩] []
      = [⟨0, h, W, H - h⟩, ⟨w, 0, W - w, H⟩] from rfl]
  simp

end bin_pack

namespace atlas

theorem readUInt_cons0 (b : Nat) (t : List Nat) :
    readUInt ⟨b :: t, 0, false⟩ 1 = (b, ⟨b :: t, 1, false⟩) := by
  unfold readUInt readBytes
  have hmin : min 1 (b :: t).length - 0 = 1 := by
    simp [List.length_cons]
  simp [Nat.min_def]

theorem readUInt_cons1 (b c : Nat) (t : List Nat) :
    readUInt ⟨b :: c :: t, 1, false⟩ 1 = (c, ⟨b :: c :: t, 2, false⟩) := by
  unfold readUInt readBytes
  simp [Nat.min_def]

/-- When every page image loads, the page loop never terminates once the page
count reaches 128: the signed-char counter wraps from 127 to -128 and the
loop condition `i < page_size` never fails. -/
theorem loadPages_stuck (canLoad : List Nat → Bool)
    (hcl : ∀ nm, canLoad nm = true) (pageSize : Nat) (hps : 128 ≤ pageSize) :
    ∀ (fuel : Nat) (i : Int) (st : ioStream) (acc : texture_atlasM),
      -128 ≤ i → i ≤ 127 →
      loadPages canLoad fuel pageSize i st acc = none := by
  intro fuel
  induction fuel with
  | zero => intro i st acc _ _; rfl
  | succ fuel ih =>
    intro i st acc h1 h2
    rw [loadPages]
    rw [if_pos (by omega)]
    dsimp only
    rw [hcl, if_pos rfl]
    split
    · rfl
    · exact ih _ _ _ (by unfold wrap8; omega) (by unfold wrap8; omega)

/-- Whatever the environment, the page loop never exits cleanly once the page
count reaches 128: in each iteration the wrapped signed-char counter stays
below the count, so the loop either runs out of fuel or escapes with a
page-image load error. -/
theorem loadPages_no_clean (canLoad : List Nat → Bool) (pageSize : Nat)
    (hps : 128 ≤ pageSize) :
    ∀ (fuel : Nat) (i : Int) (st : ioStream) (acc a : texture_atlasM)
      (st2 : ioStream),
      -128 ≤ i → i ≤ 127 →
      loadPages canLoad fuel pageSize i st acc ≠ some (a, none, st2) := by
  intro fuel
  induction fuel with
  | zero => intro i st acc a st2 _ _ h; exact Option.noConfusion h
  | succ fuel ih =>
    intro i st acc a st2 h1 h2 h
    rw [loadPages, if_pos (by omega)] at h
    dsimp only at h
    by_cases hcl : canLoad (readString st).1 = true
    · rw [if_pos hcl] at h
      split at h
      · exact Option.noConfusion h
      · exact ih _ _ _ _ _ (by unfold wrap8; omega) (by unfold wrap8; omega) h
    · rw [if_neg hcl] at h
      simp at h

/-- The page loop never escapes with the version error: the only error it can
raise is a page-image load failure (the version check sits before it, in load
itself). -/
theorem loadPages_no_version_error (canLoad : List Nat → Bool) :
    ∀ (fuel pageSize : Nat) (i : Int) (st : ioStream) (acc a : texture_atlasM)
      (v : Nat) (st2 : ioStream),
      loadPages canLoad fuel pageSize i st acc
        ≠ some (a, some (loadError.unsupportedVersion v), st2) := by
  intro fuel
  induction fuel with
  | zero => intro ps i st acc a v st2 h; exact Option.noConfusion h
  | succ fuel ih =>
    intro ps i st acc a v st2 h
    rw [loadPages] at h
    by_cases hi : i < (ps : Int)
    · rw [if_pos hi] at h
      dsimp only at h
      by_cases hcl : canLoad (readString st).1 = true
      · rw [if_pos hcl] at h
        split at h
        · exact Option.noConfusion h
        · exact ih _ _ _ _ _ _ _ h
      · rw [if_neg hcl] at h
        simp at h
    · rw [if_neg hi] at h
      simp at h

/-- A stream truncated right before the page count byte decodes cleanly in
every environment: the page count reads as zero, the page loop body never
runs (so no page image is ever consulted), and load returns an empty atlas
with no error even though the read ran past the end of the stream. -/
theorem load_truncated_before_page_count (canLoad : List Nat → Bool)
    (prev : texture_atlasM) (fuel : Nat) :
    load canLoad prev (fuel + 1) ⟨[1], 0, false⟩
      = some (⟨[], []⟩, none, ⟨[1], 1, true⟩) := by
  unfold load
  rw [readUInt_cons0]
  dsimp only
  rw [if_neg (by simp)]
  rw [show readUInt ⟨[1], 1, false⟩ 1 = (0, ⟨[1], 1, true⟩) from by decide]
  dsimp only
  rw [loadPages]
  rw [if_neg (by simp)]

end atlas

/-! ### Claim theorems -/

/-- C4: for every page (bin_pack instance) and every sequence of successful
insert/place operations starting from init, no two rectangles in the page's
used list overlap: every pair of used rectangles has intersection area zero.
-/
theorem C4_used_rectangles_no_overlap {st : bin_pack} (h : bin_pack.reachable st) :
    List.Pairwise (fun a b => interArea a b = 0) st.used_rects :=
  ((bin_pack.masterInv_reachable h).2.2.1).imp interArea_eq_zero_of_ptDisjoint

/-- Witness for C4 at a concrete two-insert run. -/
theorem C4_used_rectangles_no_overlap_witness :
    List.Pairwise (fun a b => interArea a b = 0)
      (((bin_pack.init 10 10).insert 3 3).2.insert 4 4).2.used_rects :=
  C4_used_rectangles_no_overlap
    (bin_pack.reachable.insert _ 4 4
      (bin_pack.reachable.insert _ 3 3 (bin_pack.reachable.init 10 10)))

/-- C5: after each place() completes (split of overlapped free rectangles
followed by the prune pass), no rectangle in the page's free list is wholly
contained in another rectangle of the same free list. -/
theorem C5_free_list_minimality {st : bin_pack} (h : bin_pack.reachable st) :
    List.Pairwise (fun a b => ¬a.contained_in b ∧ ¬b.contained_in a) st.free_rects :=
  (bin_pack.masterInv_reachable h).2.1

/-- Witness for C5 at a concrete two-insert run. -/
theorem C5_free_list_minimality_witness :
    List.Pairwise (fun a b => ¬a.contained_in b ∧ ¬b.contained_in a)
      (((bin_pack.init 10 10).insert 3 3).2.insert 4 4).2.free_rects :=
  C5_free_list_minimality
    (bin_pack.reachable.insert _ 4 4
      (bin_pack.reachable.insert _ 3 3 (bin_pack.reachable.init 10 10)))

/-- C9: bin_pack::insert treats only zero height as "no fit": on a fresh bin
of positive size (within the int range), insert(0, h) with 0 < h ≤ bin height
commits a degenerate width-0 height-h rectangle at the origin - it is appended
to the used list while the free list is untouched (no free rectangle is split)
- whereas insert(w, 0) returns a zero-height rectangle and leaves the whole
state unchanged, for every state and every w. -/
theorem C9_insert_zero_height_is_no_fit (W H h : Int) (hW : 0 < W) (hH : 0 < H)
    (hWm : W ≤ intMax) (hHm : H ≤ intMax) (hh : 0 < h) (hle : h ≤ H) :
    ((bin_pack.init W H).insert 0 h).1 = ⟨0, 0, 0, h⟩ ∧
    ((bin_pack.init W H).insert 0 h).2 =
      { bin_pack.init W H with used_rects := [⟨0, 0, 0, h⟩] } ∧
    ∀ (st : bin_pack) (w : Int), (st.insert w 0).1.height = 0 ∧ (st.insert w 0).2 = st := by
  have hfits : bin_pack.fits ⟨0, 0, W, H⟩ 0 h :=
    ⟨show W ≥ 0 by omega, show H ≥ h by omega⟩
  have habs1 : |(0 : Int) + W - 0| = W := by
    rw [abs_of_nonneg (by omega : (0 : Int) ≤ 0 + W - 0)]
    omega
  have hlex : bin_pack.lexLt (bin_pack.spPair ⟨0, 0, W, H⟩ 0 h) (intMax, intMax) := by
    unfold bin_pack.spPair bin_pack.lexLt
    left
    show min |(⟨0, 0, W, H⟩ : rect).width - 0| |(⟨0, 0, W, H⟩ : rect).height - h| < intMax
    have e1 : |(⟨0, 0, W, H⟩ : rect).width - 0| = W := by
      show |W - 0| = W
      rw [abs_of_nonneg (by omega : (0 : Int) ≤ W - 0)]
      omega
    have e2 : |(⟨0, 0, W, H⟩ : rect).height - h| = H - h := by
      show |H - h| = H - h
      exact abs_of_nonneg (by omega)
    rw [e1, e2]
    unfold intMax at hHm ⊢
    omega
  have hfp : bin_pack.find_pos (bin_pack.init W H) 0 h
      = ⟨⟨0, 0, 0, h⟩, (bin_pack.spPair ⟨0, 0, W, H⟩ 0 h).1,
          (bin_pack.spPair ⟨0, 0, W, H⟩ 0 h).2⟩ := by
    unfold bin_pack.find_pos
    have hfr : (bin_pack.init W H).free_rects = [⟨0, 0, W, H⟩] := rfl
    rw [hfr]
    conv_lhs => rw [bin_pack.find_posLoop]
    rw [if_pos hfits, if_pos hlex]
    rfl
  have hnode : (bin_pack.find_pos (bin_pack.init W H) 0 h).node = ⟨0, 0, 0, h⟩ := by
    rw [hfp]
  have hne : ¬(bin_pack.find_pos (bin_pack.init W H) 0 h).node.height = 0 := by
    rw [hnode]
    show ¬h = 0
    omega
  have hins : (bin_pack.init W H).insert 0 h
      = ((bin_pack.find_pos (bin_pack.init W H) 0 h).node,
          bin_pack.place (bin_pack.init W H) (bin_pack.find_pos (bin_pack.init W H) 0 h).node) := by
    unfold bin_pack.insert
    rw [if_neg hne]
  have hnosc : ¬bin_pack.splitConds ([(⟨0, 0, W, H⟩ : rect)].getD 0 default) ⟨0, 0, 0, h⟩ := by
    intro hsc
    unfold bin_pack.splitConds at hsc
    simp [List.getD] at hsc
  have h1 : bin_pack.placeLoop [⟨0, 0, W, H⟩] ⟨0, []⟩ ⟨0, 0, 0, h⟩ 0
      = bin_pack.placeLoop [⟨0, 0, W, H⟩] ⟨0, []⟩ ⟨0, 0, 0, h⟩ 1 :=
    bin_pack.placeLoop_step_false (by simp) hnosc
  have h2 : bin_pack.placeLoop [(⟨0, 0, W, H⟩ : rect)] ⟨0, []⟩ ⟨0, 0, 0, h⟩ 1
      = ([⟨0, 0, W, H⟩], ⟨0, []⟩) :=
    bin_pack.placeLoop_exit (by simp)
  have hpi : bin_pack.pruneInner ⟨0, 0, W, H⟩ [] 0 = [] :=
    bin_pack.pruneInner_exit (by simp)
  have hpo : bin_pack.pruneOuter [] [(⟨0, 0, W, H⟩ : rect)] = [] := by
    rw [bin_pack.pruneOuter, hpi, bin_pack.pruneOuter]
  have hplace : bin_pack.place (bin_pack.init W H) ⟨0, 0, 0, h⟩
      = { bin_pack.init W H with used_rects := [⟨0, 0, 0, h⟩] } := by
    unfold bin_pack.place
    have hfr : (bin_pack.init W H).free_rects = [⟨0, 0, W, H⟩] := rfl
    have hnl : (bin_pack.init W H).new_free_rects = [] := rfl
    have hns : (bin_pack.init W H).new_free_rects_last_size = 0 := rfl
    rw [hfr, hnl, hns, h1, h2]
    simp only [hpo]
    simp [bin_pack.init]
  refine ⟨?_, ?_, ?_⟩
  · rw [hins, hnode]
  · rw [hins, hnode, hplace]
  · intro st w
    have hzero : (bin_pack.find_pos st w 0).node.height = 0 := by
      rcases bin_pack.find_posLoop_spec w 0 st.free_rects ⟨{}, intMax, intMax⟩ with
        ⟨heq, _⟩ | ⟨F, _, _, heq, _, _⟩
      · unfold bin_pack.find_pos
        rw [heq]
      · unfold bin_pack.find_pos
        rw [heq]
    constructor
    · unfold bin_pack.insert
      rw [if_pos hzero]
      exact hzero
    · unfold bin_pack.insert
      rw [if_pos hzero]

/-- Witness for C9 on a 10 x 10 bin with h = 3. -/
theorem C9_insert_zero_height_is_no_fit_witness :
    ((bin_pack.init 10 10).insert 0 3).1 = ⟨0, 0, 0, 3⟩ ∧
    ((bin_pack.init 10 10).insert 0 3).2 =
      { bin_pack.init 10 10 with used_rects := [⟨0, 0, 0, 3⟩] } ∧
    ∀ (st : bin_pack) (w : Int), (st.insert w 0).1.height = 0 ∧ (st.insert w 0).2 = st :=
  C9_insert_zero_height_is_no_fit 10 10 3 (by decide) (by decide) (by decide) (by decide)
    (by decide) (by decide)

/-- C6: score(width, height) considers exactly the free rectangles that fit
the request (free.width >= width and free.height >= height); among those it
computes short-fit/long-fit leftovers and returns a candidate positioned at
the top-left corner of a free rectangle attaining the lexicographic minimum
of (score1, score2), with the requested size (and, for a nonzero-height
request, those minimal scores); when no free rectangle fits, both returned
scores equal the int-max sentinel and the returned rectangle has height zero.
Stated over reachable packer states with an int-range bin and nonnegative
request, the range in which the source's int arithmetic is defined. -/
theorem C6_score_best_short_side_fit {st : bin_pack} (hreach : bin_pack.reachable st)
    (w h : Int) (hw : 0 ≤ w) (hh : 0 ≤ h)
    (hbw : st.bin_width ≤ intMax) (hbh : st.bin_height ≤ intMax) :
    ((∀ r ∈ st.free_rects, ¬bin_pack.fits r w h) →
      (bin_pack.score st w h).s1 = intMax ∧ (bin_pack.score st w h).s2 = intMax ∧
      (bin_pack.score st w h).node.height = 0) ∧
    ((∃ r ∈ st.free_rects, bin_pack.fits r w h) →
      ∃ F ∈ st.free_rects, bin_pack.fits F w h ∧
        (bin_pack.score st w h).node = ⟨F.x, F.y, w, h⟩ ∧
        (∀ G ∈ st.free_rects, bin_pack.fits G w h →
          ¬bin_pack.lexLt (bin_pack.spPair G w h) (bin_pack.spPair F w h)) ∧
        (0 < h → (bin_pack.score st w h).s1 = (bin_pack.spPair F w h).1 ∧
          (bin_pack.score st w h).s2 = (bin_pack.spPair F w h).2)) := by
  obtain ⟨-, -, -, -, hbound⟩ := bin_pack.masterInv_reachable hreach
  have hM : intMax = 2147483647 := rfl
  have habs : ∀ G ∈ st.free_rects, bin_pack.fits G w h →
      bin_pack.spPair G w h
        = (min (G.width - w) (G.height - h), max (G.width - w) (G.height - h)) := by
    intro G _ hGfit
    obtain ⟨hf1, hf2⟩ := hGfit
    unfold bin_pack.spPair
    rw [abs_of_nonneg (by omega : (0 : Int) ≤ G.width - w),
      abs_of_nonneg (by omega : (0 : Int) ≤ G.height - h)]
  have hGb : ∀ G ∈ st.free_rects,
      0 ≤ G.x ∧ 0 ≤ G.y ∧ G.x + G.width ≤ st.bin_width ∧
      G.y + G.height ≤ st.bin_height := by
    intro G hG
    have hb := hbound G hG
    unfold rect.contained_in at hb
    simp only at hb
    omega
  constructor
  · intro hnf
    have h0 := bin_pack.find_pos_no_fit st w h hnf
    unfold bin_pack.score
    rw [h0, if_pos rfl]
    exact ⟨rfl, rfl, rfl⟩
  · rintro ⟨G0, hG0, hG0fit⟩
    rcases bin_pack.find_posLoop_spec w h st.free_rects ⟨{}, intMax, intMax⟩ with
      ⟨heq, hmin⟩ | ⟨F, hF, hFfit, heq, _, hmin⟩
    · -- degenerate tie with the sentinel: only possible for a request of
      -- size (0, 0) against the full-int-max free rectangle at the origin
      have hfp : bin_pack.find_pos st w h = ⟨{}, intMax, intMax⟩ := by
        unfold bin_pack.find_pos
        rw [heq]
      have hG0b := hGb G0 hG0
      have hf1 := hG0fit.1
      have hf2 := hG0fit.2
      have hne := hmin G0 hG0 hG0fit
      rw [habs G0 hG0 hG0fit] at hne
      unfold bin_pack.lexLt at hne
      simp only [not_or, not_lt, not_and] at hne
      have hkey : w = 0 ∧ h = 0 ∧ G0.x = 0 ∧ G0.y = 0 ∧
          G0.width - w = intMax ∧ G0.height - h = intMax := by
        rw [hM] at hbw hbh ⊢
        omega
      obtain ⟨hw0, hh0, hx0, hy0, hsp1, hsp2⟩ := hkey
      refine ⟨G0, hG0, hG0fit, ?_, ?_, ?_⟩
      · unfold bin_pack.score
        rw [hfp, if_pos rfl]
        show ({} : rect) = ⟨G0.x, G0.y, w, h⟩
        rw [hx0, hy0, hw0, hh0]
      · intro G hG hGfit
        have hsp : bin_pack.spPair G0 w h = (intMax, intMax) := by
          rw [habs G0 hG0 hG0fit, hsp1, hsp2]
          simp
        rw [hsp]
        exact hmin G hG hGfit
      · intro hhpos
        omega
    · -- a genuine best fit was kept
      have hfp : bin_pack.find_pos st w h
          = ⟨⟨F.x, F.y, w, h⟩, (bin_pack.spPair F w h).1, (bin_pack.spPair F w h).2⟩ := by
        unfold bin_pack.find_pos
        rw [heq]
      refine ⟨F, hF, hFfit, ?_, ?_, ?_⟩
      · unfold bin_pack.score
        rw [hfp]
        by_cases hcase : (⟨F.x, F.y, w, h⟩ : rect).height = 0
        · rw [if_pos hcase]
        · rw [if_neg hcase]
      · intro G hG hGfit
        exact hmin G hG hGfit
      · intro hhpos
        have hheight : ¬(⟨F.x, F.y, w, h⟩ : rect).height = 0 := by
          show ¬h = 0
          omega
        unfold bin_pack.score
        rw [hfp, if_neg hheight]
        exact ⟨rfl, rfl⟩

/-- Witness for C6 on a fresh 10 x 10 bin with a 3 x 4 request. -/
theorem C6_score_best_short_side_fit_witness :
    ((∀ r ∈ (bin_pack.init 10 10).free_rects, ¬bin_pack.fits r 3 4) →
      (bin_pack.score (bin_pack.init 10 10) 3 4).s1 = intMax ∧
      (bin_pack.score (bin_pack.init 10 10) 3 4).s2 = intMax ∧
      (bin_pack.score (bin_pack.init 10 10) 3 4).node.height = 0) ∧
    ((∃ r ∈ (bin_pack.init 10 10).free_rects, bin_pack.fits r 3 4) →
      ∃ F ∈ (bin_pack.init 10 10).free_rects, bin_pack.fits F 3 4 ∧
        (bin_pack.score (bin_pack.init 10 10) 3 4).node = ⟨F.x, F.y, 3, 4⟩ ∧
        (∀ G ∈ (bin_pack.init 10 10).free_rects, bin_pack.fits G 3 4 →
          ¬bin_pack.lexLt (bin_pack.spPair G 3 4) (bin_pack.spPair F 3 4)) ∧
        (0 < (4 : Int) →
          (bin_pack.score (bin_pack.init 10 10) 3 4).s1 = (bin_pack.spPair F 3 4).1 ∧
          (bin_pack.score (bin_pack.init 10 10) 3 4).s2 = (bin_pack.spPair F 3 4).2)) :=
  C6_score_best_short_side_fit (bin_pack.reachable.init 10 10) 3 4 (by decide) (by decide)
    (by decide) (by decide)

/-- C2 (code bug): round-tripping fails once the page count reaches 128.  The
decoder's page loop counter is a (signed, on the x86-64 target) `char`: after
reading 128 pages it wraps from 127 to -128 and `i < page_size` stays true
forever.  Decoding the encoding of a 128-page atlas therefore never returns
the original in any environment: when every page image loads, the loop runs
forever (none for every iteration budget), and otherwise it escapes with a
page-image load error - it never exits cleanly with an atlas.  (For page
counts up to 127 and region counts up to 32767 the walk does terminate.) -/
theorem C2_roundtrip_fails_at_128_pages (canLoad : List Nat → Bool)
    (fuel : Nat) (prev : atlas.texture_atlasM) :
    ((∀ nm, canLoad nm = true) →
      atlas.load canLoad prev fuel
        ⟨atlas.encodeAtlas (List.replicate 128 ⟨[], []⟩), 0, false⟩ = none) ∧
    ∀ (a : atlas.texture_atlasM) (st2 : atlas.ioStream),
      atlas.load canLoad prev fuel
        ⟨atlas.encodeAtlas (List.replicate 128 ⟨[], []⟩), 0, false⟩
        ≠ some (a, none, st2) := by
  have h0 : atlas.encodeAtlas (List.replicate 128 ⟨[], []⟩)
      = 1 :: 128 ::
        ((List.replicate 128 (⟨[], []⟩ : atlas.atlasPage)).map atlas.encodePage).flatten := by
    simp [atlas.encodeAtlas]
  constructor
  · intro hcl
    unfold atlas.load
    rw [h0, atlas.readUInt_cons0]
    rw [if_neg (by simp)]
    rw [atlas.readUInt_cons1]
    dsimp only
    exact atlas.loadPages_stuck canLoad hcl 128 (by omega) fuel 0 _ _
      (by omega) (by omega)
  · intro a st2
    unfold atlas.load
    rw [h0, atlas.readUInt_cons0]
    rw [if_neg (by simp)]
    rw [atlas.readUInt_cons1]
    dsimp only
    exact atlas.loadPages_no_clean canLoad 128 (by omega) fuel 0 _ _ _ _
      (by omega) (by omega)

/-- C7 counterexample: the one-byte stream [version 1] truncates before the
page count, whose read therefore runs past the end of the stream and silently
yields zero; the page loop body never runs (shown here in the environment
where no page image loads at all, and by load_truncated_before_page_count for
every environment and budget), so decoding returns an empty atlas and no
error.  The claim says a page count implying a read past the end of the
stream must fail with a format error; the code returns cleanly. -/
theorem C7_truncated_stream_decodes_without_error :
    atlas.load (fun _ => false) ⟨[], []⟩ 5 ⟨[1], 0, false⟩
      = some (⟨[], []⟩, none, ⟨[1], 1, true⟩) := by decide

/-- C7 (amended): decoding fails with the decoder's own format error - the
unsupported-version error of texture_atlas.hpp line 172 - exactly when the
version byte differs from 1 (in particular a version byte of 2 fails with the
version error), in every environment.  A string length, page count or region
count that implies reading past the end of the stream is NOT detected: those
reads silently yield default values and decoding continues; the only other
error that can escape is the pixmap constructor's, raised when a page-image
file cannot be loaded, which depends on the filesystem rather than the
stream's format. -/
theorem C7_error_iff_bad_version (canLoad : List Nat → Bool)
    (prev : atlas.texture_atlasM) (fuel : Nat) (st : atlas.ioStream) :
    (∃ a v st2, atlas.load canLoad prev fuel st
        = some (a, some (atlas.loadError.unsupportedVersion v), st2)) ↔
      (atlas.readUInt st 1).1 ≠ 1 := by
  unfold atlas.load
  by_cases hv : (atlas.readUInt st 1).1 ≠ 1
  · rw [if_pos hv]
    exact iff_of_true ⟨_, _, _, rfl⟩ hv
  · rw [if_neg hv]
    dsimp only
    constructor
    · rintro ⟨a, v, st2, h⟩
      exact absurd h (atlas.loadPages_no_version_error canLoad _ _ _ _ _ _ _ _)
    · intro hne
      exact absurd hne hv

namespace packer

theorem binLoop_all_sentinel (w h : Int) :
    ∀ (bins : List bin_pack) (k : Nat) (f : Bool) (bs : Int × Int) (bl : Nat),
      (∀ b ∈ bins, bin_pack.score b w h = ⟨{}, intMax, intMax⟩) →
      binLoop w h bins k f bs bl = (f, bs, bl) := by
  intro bins
  induction bins with
  | nil => intro k f bs bl _; rfl
  | cons b rest ih =>
    intro k f bs bl hall
    rw [binLoop]
    rw [hall b (List.mem_cons_self _ _)]
    rw [if_neg (by simp)]
    exact ih (k + 1) f bs bl (fun b hb => hall b (List.mem_cons_of_mem _ hb))

theorem spriteLoop_all_sentinel (bins : List bin_pack) :
    ∀ (l : List (String × rect_size)) (j : Nat) (sc : Int × Int) (bb br : Nat),
      (∀ info ∈ l, ∀ b ∈ bins, bin_pack.score b info.2.width info.2.height
        = ⟨{}, intMax, intMax⟩) →
      spriteLoop bins l j false sc bb br = (false, sc, bb, br) := by
  intro l
  induction l with
  | nil => intro j sc bb br _; rfl
  | cons info rest ih =>
    intro j sc bb br hall
    rw [spriteLoop]
    rw [binLoop_all_sentinel info.2.width info.2.height bins 0 false (intMax, intMax) 0
      (fun b hb => hall info (List.mem_cons_self _ _) b hb)]
    simp only [if_neg]
    exact ih (j + 1) sc bb br (fun i hi b hb => hall i (List.mem_cons_of_mem _ hi) b hb)

/-- An oversized request never fits a 40 x 40 bin. -/
theorem score_40_no_fit :
    bin_pack.score (bin_pack.init 40 40) 60 60 = ⟨{}, intMax, intMax⟩ := by
  unfold bin_pack.score
  rw [bin_pack.find_pos_no_fit _ _ _ (by decide), if_pos rfl]

theorem C3_aux : ∀ (fuel n : Nat),
    driverLoop 40 40 5 fuel
      ⟨[("s", ⟨60, 60⟩)], List.replicate n (bin_pack.init 40 40),
        List.replicate n [], 0⟩ = none := by
  intro fuel
  induction fuel with
  | zero => intro n; rfl
  | succ fuel ih =>
    intro n
    rw [driverLoop]
    rw [if_pos (by simp)]
    have hstep : driverStep 40 40 5
        ⟨[("s", ⟨60, 60⟩)], List.replicate n (bin_pack.init 40 40),
          List.replicate n [], 0⟩
        = ⟨[("s", ⟨60, 60⟩)], List.replicate (n + 1) (bin_pack.init 40 40),
            List.replicate (n + 1) [], 0⟩ := by
      unfold driverStep
      rw [spriteLoop_all_sentinel _ _ 0 (intMax, intMax) 0 0 ?side]
      case side =>
        intro info hinfo b hb
        rcases List.mem_singleton.mp hinfo with rfl
        rcases List.eq_of_mem_replicate hb with rfl
        exact score_40_no_fit
      rw [if_neg (by simp)]
      simp [List.replicate_succ']
    rw [hstep]
    exact ih (n + 1)

end packer

/-- C3 (code bug): a sprite whose padded size exceeds the page size is never
detected: the driver has no precondition check, so on Scenario D (sprite 50x50
with padding 5, page 40x40) the packing loop keeps opening empty pages and
never terminates - for every iteration budget it is still running, rather than
failing fast with a sized-sprite error as the claim requires. -/
theorem C3_no_oversize_check_loops_forever (fuel : Nat) :
    packer.driverRun [("s", ⟨50, 50⟩)] 40 40 5 fuel = none := by
  unfold packer.driverRun
  have h := packer.C3_aux fuel 0
  simpa using h

/-- C1 (code bug): the recorded region keeps one padding worth of size.  The
committed rectangle's x and y are moved in by the padding, but its width and
height are reduced by the padding only once (packer.cpp lines 117-120), not
twice: packing a single sprite of raw size 60x60 with padding 5 (padded size
70x70) into a 100x100 page records the region (5, 5, 65, 65) - size 65x65
rather than the raw 60x60 the claim requires. -/
theorem C1_recorded_region_keeps_padding :
    ∃ st, packer.driverRun [("s", ⟨60, 60⟩)] 100 100 5 3 = some st ∧
      st.regions = [[("s", ⟨5, 5, 65, 65⟩)]] := by
  have hins := bin_pack.insert_fresh 100 100 70 70 (by decide) (by decide)
    (by decide) (by decide) (by decide)
  have hspr2 : packer.spriteLoop [bin_pack.init 100 100] [("s", ⟨70, 70⟩)]
      0 false (intMax, intMax) 0 0 = (true, (30, 30), 0, 0) := by decide
  have hstep2 : packer.driverStep 100 100 5
      ⟨[("s", ⟨70, 70⟩)], [bin_pack.init 100 100], [[]], 0⟩
      = ⟨[("s", ⟨intMax, intMax⟩)],
          [{ bin_width := 100, bin_height := 100, new_free_rects_last_size := 0,
             new_free_rects := [], used_rects := [⟨0, 0, 70, 70⟩],
             free_rects := [⟨0, 70, 100, 30⟩, ⟨70, 0, 30, 100⟩] }],
          [[("s", ⟨5, 5, 65, 65⟩)]], 1⟩ := by
    unfold packer.driverStep
    dsimp only
    rw [hspr2]
    dsimp only
    rw [if_pos rfl]
    simp only [List.getD_cons_zero]
    rw [hins]
    decide
  refine ⟨⟨[("s", ⟨intMax, intMax⟩)],
      [{ bin_width := 100, bin_height := 100, new_free_rects_last_size := 0,
         new_free_rects := [], used_rects := [⟨0, 0, 70, 70⟩],
         free_rects := [⟨0, 70, 100, 30⟩, ⟨70, 0, 30, 100⟩] }],
      [[("s", ⟨5, 5, 65, 65⟩)]], 1⟩, ?_, rfl⟩
  have e1 : packer.driverRun [("s", ⟨60, 60⟩)] 100 100 5 3
      = packer.driverLoop 100 100 5 2
          ⟨[("s", ⟨70, 70⟩)], [bin_pack.init 100 100], [[]], 0⟩ := rfl
  have e2 : packer.driverLoop 100 100 5 2
        ⟨[("s", ⟨70, 70⟩)], [bin_pack.init 100 100], [[]], 0⟩
      = packer.driverLoop 100 100 5 1 (packer.driverStep 100 100 5
          ⟨[("s", ⟨70, 70⟩)], [bin_pack.init 100 100], [[]], 0⟩) := rfl
  rw [e1, e2, hstep2]
  rfl

/-- C8 counterexample: two sprites that share the name "a" (raw size 8x8,
padding 0, both fitting the 10x10 page) end up recorded in two different
pages' region maps: the second copy does not fit the first page next to the
first copy, a second page is opened, and `emplace` in each page's own map
sees no collision.  The name "a" is therefore recorded twice across the
atlas, refuting the claim as stated for inputs with duplicate names. -/
theorem C8_duplicate_name_recorded_twice :
    ∃ st, packer.driverRun [("a", ⟨8, 8⟩), ("a", ⟨8, 8⟩)] 10 10 0 5 = some st ∧
      (st.regions.flatten.map Prod.fst).count "a" = 2 := by
  have hins := bin_pack.insert_fresh 10 10 8 8 (by decide) (by decide)
    (by decide) (by decide) (by decide)
  have hspr2 : packer.spriteLoop [bin_pack.init 10 10]
      [("a", ⟨8, 8⟩), ("a", ⟨8, 8⟩)] 0 false (intMax, intMax) 0 0
      = (true, (2, 2), 0, 0) := by decide
  have hstep2 : packer.driverStep 10 10 0
      ⟨[("a", ⟨8, 8⟩), ("a", ⟨8, 8⟩)], [bin_pack.init 10 10], [[]], 0⟩
      = ⟨[("a", ⟨intMax, intMax⟩), ("a", ⟨8, 8⟩)],
          [{ bin_width := 10, bin_height := 10, new_free_rects_last_size := 0,
             new_free_rects := [], used_rects := [⟨0, 0, 8, 8⟩],
             free_rects := [⟨0, 8, 10, 2⟩, ⟨8, 0, 2, 10⟩] }],
          [[("a", ⟨0, 0, 8, 8⟩)]], 1⟩ := by
    unfold packer.driverStep
    dsimp only
    rw [hspr2]
    dsimp only
    rw [if_pos rfl]
    simp only [List.getD_cons_zero]
    rw [hins]
    decide
  have hspr4 : packer.spriteLoop
      [{ bin_width := 10, bin_height := 10, new_free_rects_last_size := 0,
         new_free_rects := [], used_rects := [⟨0, 0, 8, 8⟩],
         free_rects := [⟨0, 8, 10, 2⟩, ⟨8, 0, 2, 10⟩] }, bin_pack.init 10 10]
      [("a", ⟨intMax, intMax⟩), ("a", ⟨8, 8⟩)] 0 false (intMax, intMax) 0 0
      = (true, (2, 2), 1, 1) := by decide
  have hstep4 : packer.driverStep 10 10 0
      ⟨[("a", ⟨intMax, intMax⟩), ("a", ⟨8, 8⟩)],
        [{ bin_width := 10, bin_height := 10, new_free_rects_last_size := 0,
           new_free_rects := [], used_rects := [⟨0, 0, 8, 8⟩],
           free_rects := [⟨0, 8, 10, 2⟩, ⟨8, 0, 2, 10⟩] }, bin_pack.init 10 10],
        [[("a", ⟨0, 0, 8, 8⟩)], []], 1⟩
      = ⟨[("a", ⟨intMax, intMax⟩), ("a", ⟨intMax, intMax⟩)],
          [{ bin_width := 10, bin_height := 10, new_free_rects_last_size := 0,
             new_free_rects := [], used_rects := [⟨0, 0, 8, 8⟩],
             free_rects := [⟨0, 8, 10, 2⟩, ⟨8, 0, 2, 10⟩] },
           { bin_width := 10, bin_height := 10, new_free_rects_last_size := 0,
             new_free_rects := [], used_rects := [⟨0, 0, 8, 8⟩],
             free_rects := [⟨0, 8, 10, 2⟩, ⟨8, 0, 2, 10⟩] }],
          [[("a", ⟨0, 0, 8, 8⟩)], [("a", ⟨0, 0, 8, 8⟩)]], 2⟩ := by
    unfold packer.driverStep
    dsimp only
    rw [hspr4]
    dsimp only
    rw [if_pos rfl]
    rw [show List.getD [("a", (⟨intMax, intMax⟩ : rect_size)), ("a", ⟨8, 8⟩)] 1
        ("", ⟨0, 0⟩) = ("a", ⟨8, 8⟩) from rfl]
    rw [show List.getD
        [{ bin_width := 10, bin_height := 10, new_free_rects_last_size := 0,
           new_free_rects := [], used_rects := [(⟨0, 0, 8, 8⟩ : rect)],
           free_rects := [⟨0, 8, 10, 2⟩, ⟨8, 0, 2, 10⟩] },
         bin_pack.init 10 10] 1 (bin_pack.init 0 0) = bin_pack.init 10 10 from rfl]
    dsimp only
    rw [hins]
    decide
  refine ⟨⟨[("a", ⟨intMax, intMax⟩), ("a", ⟨intMax, intMax⟩)],
      [{ bin_width := 10, bin_height := 10, new_free_rects_last_size := 0,
         new_free_rects := [], used_rects := [⟨0, 0, 8, 8⟩],
         free_rects := [⟨0, 8, 10, 2⟩, ⟨8, 0, 2, 10⟩] },
       { bin_width := 10, bin_height := 10, new_free_rects_last_size := 0,
         new_free_rects := [], used_rects := [⟨0, 0, 8, 8⟩],
         free_rects := [⟨0, 8, 10, 2⟩, ⟨8, 0, 2, 10⟩] }],
      [[("a", ⟨0, 0, 8, 8⟩)], [("a", ⟨0, 0, 8, 8⟩)]], 2⟩, ?_, by decide⟩
  have e1 : packer.driverRun [("a", ⟨8, 8⟩), ("a", ⟨8, 8⟩)] 10 10 0 5
      = packer.driverLoop 10 10 0 4
          ⟨[("a", ⟨8, 8⟩), ("a", ⟨8, 8⟩)], [bin_pack.init 10 10], [[]], 0⟩ := rfl
  have e2 : packer.driverLoop 10 10 0 4
        ⟨[("a", ⟨8, 8⟩), ("a", ⟨8, 8⟩)], [bin_pack.init 10 10], [[]], 0⟩
      = packer.driverLoop 10 10 0 3 (packer.driverStep 10 10 0
          ⟨[("a", ⟨8, 8⟩), ("a", ⟨8, 8⟩)], [bin_pack.init 10 10], [[]], 0⟩) := rfl
  have e3 : packer.driverLoop 10 10 0 3
        ⟨[("a", ⟨intMax, intMax⟩), ("a", ⟨8, 8⟩)],
          [{ bin_width := 10, bin_height := 10, new_free_rects_last_size := 0,
             new_free_rects := [], used_rects := [⟨0, 0, 8, 8⟩],
             free_rects := [⟨0, 8, 10, 2⟩, ⟨8, 0, 2, 10⟩] }],
          [[("a", ⟨0, 0, 8, 8⟩)]], 1⟩
      = packer.driverLoop 10 10 0 2
          ⟨[("a", ⟨intMax, intMax⟩), ("a", ⟨8, 8⟩)],
            [{ bin_width := 10, bin_height := 10, new_free_rects_last_size := 0,
               new_free_rects := [], used_rects := [⟨0, 0, 8, 8⟩],
               free_rects := [⟨0, 8, 10, 2⟩, ⟨8, 0, 2, 10⟩] },
             bin_pack.init 10 10],
            [[("a", ⟨0, 0, 8, 8⟩)], []], 1⟩ := rfl
  have e4 : packer.driverLoop 10 10 0 2
        ⟨[("a", ⟨intMax, intMax⟩), ("a", ⟨8, 8⟩)],
          [{ bin_width := 10, bin_height := 10, new_free_rects_last_size := 0,
             new_free_rects := [], used_rects := [⟨0, 0, 8, 8⟩],
             free_rects := [⟨0, 8, 10, 2⟩, ⟨8, 0, 2, 10⟩] },
           bin_pack.init 10 10],
          [[("a", ⟨0, 0, 8, 8⟩)], []], 1⟩
      = packer.driverLoop 10 10 0 1 (packer.driverStep 10 10 0
          ⟨[("a", ⟨intMax, intMax⟩), ("a", ⟨8, 8⟩)],
            [{ bin_width := 10, bin_height := 10, new_free_rects_last_size := 0,
               new_free_rects := [], used_rects := [⟨0, 0, 8, 8⟩],
               free_rects := [⟨0, 8, 10, 2⟩, ⟨8, 0, 2, 10⟩] },
             bin_pack.init 10 10],
            [[("a", ⟨0, 0, 8, 8⟩)], []], 1⟩) := rfl
  rw [e1, e2, hstep2, e3, e4, hstep4]
  rfl

namespace bin_pack

/-- A score whose components are not both the sentinel strictly improves on
the sentinel pair: scores are only ever lowered from the initial sentinel
accumulator. -/
theorem score_lt_sentinel (b : bin_pack) (w h : Int)
    (hs : (score b w h).s1 ≠ intMax ∨ (score b w h).s2 ≠ intMax) :
    lexLt ((score b w h).s1, (score b w h).s2) (intMax, intMax) := by
  unfold score at hs ⊢
  dsimp only at hs ⊢
  by_cases hz : (find_pos b w h).node.height = 0
  · rw [if_pos hz] at hs ⊢
    dsimp only at hs
    rcases hs with hs | hs <;> exact absurd rfl hs
  · rw [if_neg hz] at hs ⊢
    unfold find_pos at hz hs ⊢
    rcases find_posLoop_spec w h b.free_rects ⟨{}, intMax, intMax⟩ with
      ⟨heq, _⟩ | ⟨F, _, _, heq, hlt, _⟩
    · rw [heq] at hz
      simp at hz
    · rw [heq]
      simpa using hlt

/-- With every free rectangle bounded by a bin width below the int-max
sentinel, a request of sentinel size fits nothing and scores the sentinel. -/
theorem score_marked_sentinel (b : bin_pack) (W : Int) (hWM : W < intMax)
    (hinv : MasterInv b) (hbw : b.bin_width = W) :
    (score b intMax intMax).s1 = intMax := by
  have hnf : ∀ r ∈ b.free_rects, ¬fits r intMax intMax := by
    intro r hr hf
    have hc := hinv.2.2.2.2 r hr
    unfold rect.contained_in at hc
    unfold fits at hf
    dsimp only at hc
    rw [hbw] at hc
    omega
  unfold score
  rw [find_pos_no_fit b intMax intMax hnf]
  dsimp only
  rw [if_pos rfl]

/-- A request that genuinely fits inside a fresh bin of sub-sentinel size
scores below the sentinel on both components. -/
theorem score_fresh_nonsentinel (W H w h : Int) (hw : 0 < w) (hw2 : w ≤ W)
    (hh : 0 < h) (hh2 : h ≤ H) (hWM : W < intMax) (hHM : H < intMax) :
    (score (init W H) w h).s1 ≠ intMax ∧
    (score (init W H) w h).s2 ≠ intMax := by
  have hfp := find_pos_fresh W H w h hw hw2 hh hh2 hWM
  unfold score
  rw [hfp]
  dsimp only
  rw [if_neg (by omega : ¬(h = 0))]
  dsimp only
  rw [abs_of_nonneg (by omega : (0 : Int) ≤ W - w),
    abs_of_nonneg (by omega : (0 : Int) ≤ H - h)]
  constructor
  · omega
  · omega

/-- insert never changes the bin dimensions. -/
theorem insert_dims (st : bin_pack) (w h : Int) :
    (st.insert w h).2.bin_width = st.bin_width ∧
    (st.insert w h).2.bin_height = st.bin_height := by
  unfold insert
  dsimp only
  split
  · exact ⟨rfl, rfl⟩
  · unfold place
    exact ⟨rfl, rfl⟩

end bin_pack

/-- A list is its prefix, its element at an in-range index, and its tail past
that index. -/
theorem list_decomp {α : Type} (l : List α) (j : Nat) (d : α) (hj : j < l.length) :
    l = l.take j ++ l.getD j d :: l.drop (j + 1) := by
  conv_lhs => rw [← List.take_append_drop j l]
  rw [List.drop_eq_getElem_cons hj, List.getD_eq_getElem l d hj]

namespace packer

/-- Two info arrays with pointwise equal names have equal name lists. -/
theorem infos_keys_eq (l infos0 : List (String × rect_size))
    (hlen : l.length = infos0.length)
    (hidx : ∀ j, j < infos0.length →
      (l.getD j dInfo).1 = (infos0.getD j dInfo).1) :
    l.map Prod.fst = infos0.map Prod.fst := by
  apply List.ext_getElem (by simp [hlen])
  intro n h1 h2
  simp only [List.getElem_map]
  have hn : n < infos0.length := by
    simp only [List.length_map] at h2
    exact h2
  have h := hidx n hn
  rw [List.getD_eq_getElem _ _ (by omega), List.getD_eq_getElem _ _ hn] at h
  exact h

/-- Once the bin scan has seen a fit, it reports a fit. -/
theorem binLoop_stays_true (w h : Int) :
    ∀ (bins : List bin_pack) (k : Nat) (bs : Int × Int) (bl : Nat),
      (binLoop w h bins k true bs bl).1 = true := by
  intro bins
  induction bins with
  | nil => intro k bs bl; rfl
  | cons b rest ih =>
    intro k bs bl
    rw [binLoop]
    split
    · split
      · exact ih _ _ _
      · exact ih _ _ _
    · exact ih _ _ _

/-- A reported fit from a fitless start names a bin with a non-sentinel
score. -/
theorem binLoop_fits_exists (w h : Int) :
    ∀ (bins : List bin_pack) (k : Nat) (bs : Int × Int) (bl : Nat),
      (binLoop w h bins k false bs bl).1 = true →
      ∃ b ∈ bins, (bin_pack.score b w h).s1 ≠ intMax ∧
        (bin_pack.score b w h).s2 ≠ intMax := by
  intro bins
  induction bins with
  | nil =>
    intro k bs bl hx
    exact absurd hx (by rw [binLoop]; exact fun hc => Bool.noConfusion hc)
  | cons b rest ih =>
    intro k bs bl hx
    rw [binLoop] at hx
    by_cases hcond : (bin_pack.score b w h).s1 ≠ intMax ∧
        (bin_pack.score b w h).s2 ≠ intMax
    · exact ⟨b, List.mem_cons_self _ _, hcond⟩
    · rw [if_neg hcond] at hx
      obtain ⟨b2, hb2, hc2⟩ := ih _ _ _ hx
      exact ⟨b2, List.mem_cons_of_mem _ hb2, hc2⟩

/-- The bin scan returns either its incoming best index or an index of one of
the scanned bins. -/
theorem binLoop_best_range (w h : Int) :
    ∀ (bins : List bin_pack) (k : Nat) (f : Bool) (bs : Int × Int) (bl : Nat),
      (binLoop w h bins k f bs bl).2.2 = bl ∨
        (k ≤ (binLoop w h bins k f bs bl).2.2 ∧
          (binLoop w h bins k f bs bl).2.2 < k + bins.length) := by
  intro bins
  induction bins with
  | nil => intro k f bs bl; left; rfl
  | cons b rest ih =>
    intro k f bs bl
    rw [binLoop]
    split
    · split
      · rcases ih (k + 1) true _ k with hh | hh
        · right
          rw [hh]
          simp only [List.length_cons]
          omega
        · right
          simp only [List.length_cons]
          omega
      · rcases ih (k + 1) true bs bl with hh | hh
        · left; exact hh
        · right
          simp only [List.length_cons]
          omega
    · rcases ih (k + 1) f bs bl with hh | hh
      · left; exact hh
      · right
        simp only [List.length_cons]
        omega

/-- The bin scan's reported score strictly improves on the sentinel whenever
it reports a fit, provided the incoming accumulator does so too. -/
theorem binLoop_score_lt (w h : Int) :
    ∀ (bins : List bin_pack) (k : Nat) (f : Bool) (bs : Int × Int) (bl : Nat),
      (f = false → bs = (intMax, intMax)) →
      (f = true → bin_pack.lexLt bs (intMax, intMax)) →
      (binLoop w h bins k f bs bl).1 = true →
      bin_pack.lexLt (binLoop w h bins k f bs bl).2.1 (intMax, intMax) := by
  intro bins
  induction bins with
  | nil =>
    intro k f bs bl h0 h1 ht
    exact h1 ht
  | cons b rest ih =>
    intro k f bs bl h0 h1 ht
    rw [binLoop] at ht ⊢
    by_cases hns : (bin_pack.score b w h).s1 ≠ intMax ∧
        (bin_pack.score b w h).s2 ≠ intMax
    · rw [if_pos hns] at ht ⊢
      have hlt := bin_pack.score_lt_sentinel b w h (Or.inl hns.1)
      by_cases hl2 : bin_pack.lexLt
          ((bin_pack.score b w h).s1, (bin_pack.score b w h).s2) bs
      · rw [if_pos hl2] at ht ⊢
        exact ih _ _ _ _ (fun hc => Bool.noConfusion hc) (fun _ => hlt) ht
      · rw [if_neg hl2] at ht ⊢
        cases f with
        | false =>
          rw [h0 rfl] at hl2
          exact absurd hlt hl2
        | true =>
          exact ih _ _ _ _ (fun hc => Bool.noConfusion hc) (fun _ => h1 rfl) ht
    · rw [if_neg hns] at ht ⊢
      exact ih _ _ _ _ h0 h1 ht

/-- A bin with a non-sentinel score forces the bin scan to report a fit. -/
theorem binLoop_progress (w h : Int) :
    ∀ (bins : List bin_pack) (k : Nat) (f : Bool) (bs : Int × Int) (bl : Nat),
      (∃ b ∈ bins, (bin_pack.score b w h).s1 ≠ intMax ∧
        (bin_pack.score b w h).s2 ≠ intMax) →
      (binLoop w h bins k f bs bl).1 = true := by
  intro bins
  induction bins with
  | nil =>
    rintro k f bs bl ⟨b, hb, -⟩
    cases hb
  | cons b rest ih =>
    rintro k f bs bl ⟨b2, hb2, hc2⟩
    rw [binLoop]
    rcases List.mem_cons.mp hb2 with rfl | hmem
    · rw [if_pos hc2]
      split
      · exact binLoop_stays_true w h rest _ _ _
      · exact binLoop_stays_true w h rest _ _ _
    · by_cases hns : (bin_pack.score b w h).s1 ≠ intMax ∧
          (bin_pack.score b w h).s2 ≠ intMax
      · rw [if_pos hns]
        split
        · exact binLoop_stays_true w h rest _ _ _
        · exact binLoop_stays_true w h rest _ _ _
      · rw [if_neg hns]
        exact ih _ _ _ _ ⟨b2, hmem, hc2⟩

/-- Once the sprite scan has seen a fit, it reports a fit. -/
theorem spriteLoop_stays_true (bins : List bin_pack) :
    ∀ (l : List (String × rect_size)) (j : Nat) (sc : Int × Int) (bb br : Nat),
      (spriteLoop bins l j true sc bb br).1 = true := by
  intro l
  induction l with
  | nil => intro j sc bb br; rfl
  | cons info rest ih =>
    intro j sc bb br
    rw [spriteLoop]
    split
    · split
      · exact ih _ _ _ _
      · exact ih _ _ _ _
    · exact ih _ _ _ _

/-- A pending sprite that some open bin scores below the sentinel forces the
sprite scan to report a fit. -/
theorem spriteLoop_progress (bins : List bin_pack) :
    ∀ (l : List (String × rect_size)) (j : Nat) (af : Bool) (sc : Int × Int)
      (bb br : Nat),
      (∃ info ∈ l, ∃ b ∈ bins,
        (bin_pack.score b info.2.width info.2.height).s1 ≠ intMax ∧
        (bin_pack.score b info.2.width info.2.height).s2 ≠ intMax) →
      (spriteLoop bins l j af sc bb br).1 = true := by
  intro l
  induction l with
  | nil =>
    rintro j af sc bb br ⟨i, hi, -⟩
    cases hi
  | cons info rest ih =>
    rintro j af sc bb br ⟨i2, hi2, hfit⟩
    rw [spriteLoop]
    rcases List.mem_cons.mp hi2 with rfl | hmem
    · rw [if_pos (binLoop_progress _ _ bins 0 false (intMax, intMax) 0 hfit)]
      split
      · exact spriteLoop_stays_true bins rest _ _ _ _
      · exact spriteLoop_stays_true bins rest _ _ _ _
    · by_cases hr : (binLoop info.2.width info.2.height bins 0 false
          (intMax, intMax) 0).1 = true
      · rw [if_pos hr]
        split
        · exact spriteLoop_stays_true bins rest _ _ _ _
        · exact spriteLoop_stays_true bins rest _ _ _ _
      · rw [if_neg hr]
        exact ih _ _ _ _ _ ⟨i2, hmem, hfit⟩

/-- The sprite scan from a fitless sentinel start returns, when it reports a
fit, a sound greedy pick: in-range sprite and bin indices with a genuinely
fitting bin for that sprite's current size. -/
theorem spriteLoop_pick (bins : List bin_pack) (infos : List (String × rect_size)) :
    ∀ (l : List (String × rect_size)) (j : Nat) (af : Bool) (sc : Int × Int)
      (bb br : Nat),
      (∀ m, m < l.length → l.getD m dInfo = infos.getD (j + m) dInfo) →
      j + l.length ≤ infos.length →
      (af = false → sc = (intMax, intMax)) →
      (af = true → pickOK bins infos bb br) →
      (spriteLoop bins l j af sc bb br).1 = true →
      pickOK bins infos (spriteLoop bins l j af sc bb br).2.2.1
        (spriteLoop bins l j af sc bb br).2.2.2 := by
  intro l
  induction l with
  | nil =>
    intro j af sc bb br _ _ _ hacc htrue
    exact hacc htrue
  | cons info rest ih =>
    intro j af sc bb br hl hlen hsc0 hacc htrue
    have hinfo : info = infos.getD j dInfo := by
      have h0 := hl 0 (by simp)
      simpa using h0
    have hshift : ∀ m, m < rest.length →
        rest.getD m dInfo = infos.getD (j + 1 + m) dInfo := by
      intro m hm
      have h := hl (m + 1) (by simp only [List.length_cons]; omega)
      rw [show j + 1 + m = j + (m + 1) from by omega]
      exact h
    have hlen2 : j + 1 + rest.length ≤ infos.length := by
      simp only [List.length_cons] at hlen
      omega
    rw [spriteLoop] at htrue ⊢
    by_cases hr : (binLoop info.2.width info.2.height bins 0 false
        (intMax, intMax) 0).1 = true
    · have hpickj : pickOK bins infos
          (binLoop info.2.width info.2.height bins 0 false (intMax, intMax) 0).2.2
          j := by
        obtain ⟨b, hbmem, hc⟩ := binLoop_fits_exists _ _ bins 0 _ 0 hr
        refine ⟨by simp only [List.length_cons] at hlen; omega, ?_, ?_⟩
        · rcases binLoop_best_range info.2.width info.2.height bins 0 false
              (intMax, intMax) 0 with hb | hb
          · rw [hb]
            exact List.length_pos.mpr (by rintro rfl; cases hbmem)
          · omega
        · rw [← hinfo]
          exact ⟨b, hbmem, hc⟩
      rw [if_pos hr] at htrue ⊢
      by_cases hlex2 : bin_pack.lexLt
          (binLoop info.2.width info.2.height bins 0 false (intMax, intMax) 0).2.1 sc
      · rw [if_pos hlex2] at htrue ⊢
        exact ih (j + 1) true _ _ _ hshift hlen2
          (fun hc => Bool.noConfusion hc) (fun _ => hpickj) htrue
      · rw [if_neg hlex2] at htrue ⊢
        cases af with
        | false =>
          have hlt := binLoop_score_lt info.2.width info.2.height bins 0 false
            (intMax, intMax) 0 (fun _ => rfl) (fun hc => Bool.noConfusion hc) hr
          rw [hsc0 rfl] at hlex2
          exact absurd hlt hlex2
        | true =>
          exact ih (j + 1) true sc bb br hshift hlen2
            (fun hc => Bool.noConfusion hc) (fun _ => hacc rfl) htrue
    · rw [if_neg hr] at htrue ⊢
      exact ih (j + 1) af sc bb br hshift hlen2 hsc0 hacc htrue

/-- Placing the picked sprite preserves the driver invariant: the committed
record updates (mark the sprite done, store the new bin, record the region in
the picked page's map) keep names, counts, the recorded-name multiset, the
page/bin pairing and the per-bin invariants in step. -/
theorem DInv_place_update (W H : Int) (infos0 : List (String × rect_size))
    (st : DriverState) (bk bj : Nat) (newbin : bin_pack) (prect : rect)
    (hnames : (infos0.map Prod.fst).Nodup)
    (hinv : DInv W H infos0 st)
    (hbj : bj < st.infos.length) (hbk : bk < st.bins.length)
    (hunmarked : (st.infos.getD bj dInfo).2 ≠ marker)
    (hnb : bin_pack.MasterInv newbin ∧ newbin.bin_width = W ∧
      newbin.bin_height = H) :
    DInv W H infos0
      { infos := st.infos.set bj ((st.infos.getD bj dInfo).1, marker),
        bins := st.bins.set bk newbin,
        regions := st.regions.set bk
          (emplace (st.regions.getD bk []) (st.infos.getD bj dInfo).1 prect),
        placed := st.placed + 1 } := by
  obtain ⟨hlen, hidx, hcount, hperm, hreg, hbins⟩ := hinv
  have hjN : bj < infos0.length := by omega
  have hbkR : bk < st.regions.length := by omega
  have hkeys : st.infos.map Prod.fst = infos0.map Prod.fst :=
    infos_keys_eq st.infos infos0 hlen (fun j hj => (hidx j hj).1)
  have hdecomp := list_decomp st.infos bj dInfo hbj
  have hnm_mem : (st.infos.getD bj dInfo).1 ∈ infos0.map Prod.fst := by
    rw [← hkeys, List.getD_eq_getElem _ _ hbj]
    exact List.mem_map_of_mem Prod.fst (List.getElem_mem hbj)
  have hcount1 : ((st.infos.map Prod.fst).count (st.infos.getD bj dInfo).1) = 1 := by
    rw [hkeys]
    exact List.count_eq_one_of_mem hnames hnm_mem
  have hdecompK : st.infos.map Prod.fst
      = (st.infos.take bj).map Prod.fst ++ (st.infos.getD bj dInfo).1 ::
        (st.infos.drop (bj + 1)).map Prod.fst := by
    conv_lhs => rw [hdecomp]
    rw [List.map_append, List.map_cons]
  have hc0 : ((st.infos.take bj).map Prod.fst).count (st.infos.getD bj dInfo).1
        = 0 ∧
      ((st.infos.drop (bj + 1)).map Prod.fst).count (st.infos.getD bj dInfo).1
        = 0 := by
    rw [hdecompK, List.count_append, List.count_cons] at hcount1
    simp only [beq_self_eq_true, if_true] at hcount1
    omega
  have hfilter_decomp : st.infos.filter (fun e => decide (e.2 = marker))
      = (st.infos.take bj).filter (fun e => decide (e.2 = marker)) ++
        (st.infos.drop (bj + 1)).filter (fun e => decide (e.2 = marker)) := by
    conv_lhs => rw [hdecomp]
    rw [List.filter_append, List.filter_cons, decide_eq_false hunmarked]
    simp
  have hmk0 : (((st.infos.filter (fun e => decide (e.2 = marker))).map
      Prod.fst).count (st.infos.getD bj dInfo).1) = 0 := by
    rw [hfilter_decomp, List.map_append, List.count_append]
    have hs1 := (List.Sublist.map Prod.fst
      (List.filter_sublist (p := fun e => decide (e.2 = marker))
        (st.infos.take bj))).count_le (st.infos.getD bj dInfo).1
    have hs2 := (List.Sublist.map Prod.fst
      (List.filter_sublist (p := fun e => decide (e.2 = marker))
        (st.infos.drop (bj + 1)))).count_le (st.infos.getD bj dInfo).1
    omega
  have hfl0 : ((st.regions.flatten.map Prod.fst).count
      (st.infos.getD bj dInfo).1) = 0 := by
    rw [hperm.count_eq]
    exact hmk0
  have hnotmem : ∀ e ∈ st.regions.getD bk [],
      e.1 ≠ (st.infos.getD bj dInfo).1 := by
    intro e he hne
    have hmemflat : e ∈ st.regions.flatten := by
      rw [List.mem_flatten]
      refine ⟨st.regions.getD bk [], ?_, he⟩
      rw [List.getD_eq_getElem _ _ hbkR]
      exact List.getElem_mem hbkR
    have hmm : (st.infos.getD bj dInfo).1 ∈ st.regions.flatten.map Prod.fst := by
      rw [← hne]
      exact List.mem_map_of_mem Prod.fst hmemflat
    exact absurd hmm (List.count_eq_zero.mp hfl0)
  have hemp : emplace (st.regions.getD bk []) (st.infos.getD bj dInfo).1 prect
      = st.regions.getD bk [] ++ [((st.infos.getD bj dInfo).1, prect)] := by
    unfold emplace
    rw [if_neg ?hcnd]
    case hcnd =>
      intro hany
      obtain ⟨e, he, hbe⟩ := List.any_eq_true.mp hany
      exact hnotmem e he (eq_of_beq hbe)
  unfold DInv
  dsimp only
  refine ⟨?_, ?_, ?_, ?_, ?_, ?_⟩
  · rw [List.length_set]
    exact hlen
  · intro j hj
    by_cases hjj : j = bj
    · subst hjj
      have hsget : (st.infos.set j ((st.infos.getD j dInfo).1, marker)).getD j
          dInfo = ((st.infos.getD j dInfo).1, marker) := by
        rw [List.getD_eq_getElem _ _ (by rw [List.length_set]; exact hbj)]
        exact List.getElem_set_self _
      rw [hsget]
      exact ⟨(hidx j hj).1, Or.inr rfl⟩
    · have hjlen : j < st.infos.length := by omega
      have hsget : (st.infos.set bj ((st.infos.getD bj dInfo).1, marker)).getD j
          dInfo = st.infos.getD j dInfo := by
        rw [List.getD_eq_getElem _ _ (by rw [List.length_set]; exact hjlen),
          List.getD_eq_getElem _ _ hjlen]
        exact List.getElem_set_ne (by omega) _
      rw [hsget]
      exact hidx j hj
  · have h1 : st.infos.countP (fun e => decide (e.2 = marker))
        = (st.infos.take bj).countP (fun e => decide (e.2 = marker)) +
          (st.infos.drop (bj + 1)).countP (fun e => decide (e.2 = marker)) := by
      conv_lhs => rw [hdecomp]
      rw [List.countP_append, List.countP_cons, decide_eq_false hunmarked]
      simp
    have h2 : (st.infos.set bj ((st.infos.getD bj dInfo).1, marker)).countP
          (fun e => decide (e.2 = marker))
        = (st.infos.take bj).countP (fun e => decide (e.2 = marker)) +
          (st.infos.drop (bj + 1)).countP (fun e => decide (e.2 = marker)) + 1 := by
      rw [List.set_eq_take_append_cons_drop, if_pos hbj, List.countP_append,
        List.countP_cons]
      simp only [decide_eq_true_eq]
      simp
      omega
    rw [h2, hcount, h1]
  · rw [hemp, List.set_eq_take_append_cons_drop, if_pos hbkR,
      List.set_eq_take_append_cons_drop, if_pos hbj]
    rw [List.filter_append, List.filter_cons]
    rw [if_pos (by simp : decide ((((st.infos.getD bj dInfo).1, marker) :
      String × rect_size).2 = marker) = true)]
    simp only [List.flatten_append, List.flatten_cons, List.map_append,
      List.map_cons, List.map_nil, List.append_assoc, List.singleton_append,
      List.cons_append]
    have hflat_decomp : st.regions.flatten.map Prod.fst
        = (st.regions.take bk).flatten.map Prod.fst ++
          ((st.regions.getD bk []).map Prod.fst ++
            (st.regions.drop (bk + 1)).flatten.map Prod.fst) := by
      conv_lhs => rw [list_decomp st.regions bk [] hbkR]
      simp only [List.flatten_append, List.flatten_cons, List.map_append,
        List.append_assoc]
    have hmarked_decomp : (st.infos.filter
          (fun e => decide (e.2 = marker))).map Prod.fst
        = ((st.infos.take bj).filter (fun e => decide (e.2 = marker))).map
            Prod.fst ++
          ((st.infos.drop (bj + 1)).filter (fun e => decide (e.2 = marker))).map
            Prod.fst := by
      rw [hfilter_decomp, List.map_append]
    rw [hflat_decomp, hmarked_decomp] at hperm
    refine List.Perm.trans ?_ (List.Perm.trans
      (hperm.cons (st.infos.getD bj dInfo).1) List.perm_middle.symm)
    exact List.Perm.trans (List.Perm.append_left _ List.perm_middle)
      List.perm_middle
  · rw [List.length_set, List.length_set]
    exact hreg
  · intro b hb
    rcases List.mem_or_eq_of_mem_set hb with hmem | rfl
    · exact hbins b hmem
    · exact hnb

/-- When the sprite scan reports a fit, one driver iteration places the picked
sprite: the invariant is preserved and the placed counter advances. -/
theorem driverStep_place (W H padding : Int) (infos0 : List (String × rect_size))
    (st : DriverState) (hWM : W < intMax)
    (hnames : (infos0.map Prod.fst).Nodup)
    (hinv : DInv W H infos0 st)
    (htrue : (spriteLoop st.bins st.infos 0 false (intMax, intMax) 0 0).1 = true) :
    DInv W H infos0 (driverStep W H padding st) ∧
    (driverStep W H padding st).placed = st.placed + 1 := by
  have hpick : pickOK st.bins st.infos
      (spriteLoop st.bins st.infos 0 false (intMax, intMax) 0 0).2.2.1
      (spriteLoop st.bins st.infos 0 false (intMax, intMax) 0 0).2.2.2 :=
    spriteLoop_pick st.bins st.infos st.infos 0 false (intMax, intMax) 0 0
      (fun m _ => by rw [Nat.zero_add]) (by omega) (fun _ => rfl)
      (fun hc => Bool.noConfusion hc) htrue
  obtain ⟨hbj, hbk, hfit⟩ := hpick
  have hunmarked : (st.infos.getD
      (spriteLoop st.bins st.infos 0 false (intMax, intMax) 0 0).2.2.2
      dInfo).2 ≠ marker := by
    intro hmk
    obtain ⟨b, hbmem, hc1, -⟩ := hfit
    obtain ⟨hMI, hbw, -⟩ := hinv.2.2.2.2.2 b hbmem
    rw [hmk] at hc1
    apply hc1
    have hs := bin_pack.score_marked_sentinel b W hWM hMI hbw
    simpa [marker] using hs
  have hbinmem : st.bins.getD
      (spriteLoop st.bins st.infos 0 false (intMax, intMax) 0 0).2.2.1
      (bin_pack.init 0 0) ∈ st.bins := by
    rw [List.getD_eq_getElem _ _ hbk]
    exact List.getElem_mem hbk
  obtain ⟨hMI, hbw, hbh⟩ := hinv.2.2.2.2.2 _ hbinmem
  have hnb : bin_pack.MasterInv (bin_pack.insert
        (st.bins.getD (spriteLoop st.bins st.infos 0 false (intMax, intMax) 0
          0).2.2.1 (bin_pack.init 0 0))
        (st.infos.getD (spriteLoop st.bins st.infos 0 false (intMax, intMax) 0
          0).2.2.2 dInfo).2.width
        (st.infos.getD (spriteLoop st.bins st.infos 0 false (intMax, intMax) 0
          0).2.2.2 dInfo).2.height).2 ∧
      (bin_pack.insert
        (st.bins.getD (spriteLoop st.bins st.infos 0 false (intMax, intMax) 0
          0).2.2.1 (bin_pack.init 0 0))
        (st.infos.getD (spriteLoop st.bins st.infos 0 false (intMax, intMax) 0
          0).2.2.2 dInfo).2.width
        (st.infos.getD (spriteLoop st.bins st.infos 0 false (intMax, intMax) 0
          0).2.2.2 dInfo).2.height).2.bin_width = W ∧
      (bin_pack.insert
        (st.bins.getD (spriteLoop st.bins st.infos 0 false (intMax, intMax) 0
          0).2.2.1 (bin_pack.init 0 0))
        (st.infos.getD (spriteLoop st.bins st.infos 0 false (intMax, intMax) 0
          0).2.2.2 dInfo).2.width
        (st.infos.getD (spriteLoop st.bins st.infos 0 false (intMax, intMax) 0
          0).2.2.2 dInfo).2.height).2.bin_height = H := by
    refine ⟨bin_pack.masterInv_insert _ _ _ hMI, ?_, ?_⟩
    · rw [(bin_pack.insert_dims _ _ _).1]
      exact hbw
    · rw [(bin_pack.insert_dims _ _ _).2]
      exact hbh
  constructor
  · unfold driverStep
    dsimp only
    rw [if_pos htrue]
    exact DInv_place_update W H infos0 st _ _ _ _ hnames
      ⟨hinv.1, hinv.2.1, hinv.2.2.1, hinv.2.2.2.1, hinv.2.2.2.2.1,
        hinv.2.2.2.2.2⟩ hbj hbk hunmarked hnb
  · unfold driverStep
    dsimp only
    rw [if_pos htrue]

/-- When the sprite scan reports no fit, one driver iteration opens a fresh
page: the invariant is preserved and the state is the old one with a fresh
bin and an empty region map appended. -/
theorem driverStep_open (W H padding : Int) (infos0 : List (String × rect_size))
    (st : DriverState)
    (hinv : DInv W H infos0 st)
    (hfalse : ¬(spriteLoop st.bins st.infos 0 false (intMax, intMax) 0 0).1
      = true) :
    driverStep W H padding st =
      { st with bins := st.bins ++ [bin_pack.init W H],
                regions := st.regions ++ [[]] } ∧
    DInv W H infos0 { st with bins := st.bins ++ [bin_pack.init W H],
                              regions := st.regions ++ [[]] } := by
  constructor
  · unfold driverStep
    rw [if_neg hfalse]
  · obtain ⟨hlen, hidx, hcount, hperm, hreg, hbins⟩ := hinv
    refine ⟨hlen, hidx, hcount, ?_, ?_, ?_⟩
    · simpa [List.flatten_append] using hperm
    · simp [hreg]
    · intro b hb
      rcases List.mem_append.mp hb with h | h
      · exact hbins b h
      · rcases List.mem_singleton.mp h with rfl
        exact ⟨bin_pack.masterInv_init W H, rfl, rfl⟩

/-- With a fresh page open and some sprite still pending, the sprite scan
reports a fit: every pending sprite still has its original padded size, which
fits a fresh page. -/
theorem open_then_fits (W H : Int) (infos0 : List (String × rect_size))
    (st : DriverState)
    (hWM : W < intMax) (hHM : H < intMax)
    (hsizes : ∀ s ∈ infos0, 0 < s.2.width ∧ s.2.width ≤ W ∧
      0 < s.2.height ∧ s.2.height ≤ H)
    (hinv : DInv W H infos0 st)
    (hfresh : bin_pack.init W H ∈ st.bins)
    (hlt : st.placed < st.infos.length) :
    (spriteLoop st.bins st.infos 0 false (intMax, intMax) 0 0).1 = true := by
  obtain ⟨hlen, hidx, hcount, hperm, hreg, hbins⟩ := hinv
  have hex : ∃ m, ∃ hm : m < st.infos.length,
      ¬(st.infos[m].2 = marker) := by
    by_contra hall
    push_neg at hall
    have hcp : st.infos.countP (fun e => decide (e.2 = marker))
        = st.infos.length := by
      apply List.countP_eq_length.mpr
      intro e he
      obtain ⟨m, hm, rfl⟩ := List.mem_iff_getElem.mp he
      simpa using hall m hm
    omega
  obtain ⟨m, hm, hunm⟩ := hex
  have hmN : m < infos0.length := by omega
  have hSz : (st.infos.getD m dInfo).2 = (infos0.getD m dInfo).2 := by
    rcases (hidx m hmN).2 with h | h
    · exact h
    · rw [List.getD_eq_getElem _ _ hm] at h
      exact absurd h hunm
  have he0 : infos0.getD m dInfo ∈ infos0 := by
    rw [List.getD_eq_getElem _ _ hmN]
    exact List.getElem_mem hmN
  obtain ⟨hw0, hw1, hh0, hh1⟩ := hsizes _ he0
  apply spriteLoop_progress
  refine ⟨st.infos.getD m dInfo, ?_, bin_pack.init W H, hfresh, ?_⟩
  · rw [List.getD_eq_getElem _ _ hm]
    exact List.getElem_mem hm
  · rw [hSz]
    exact bin_pack.score_fresh_nonsentinel W H _ _ hw0 hw1 hh0 hh1 hWM hHM

/-- The driver loop terminates and preserves the invariant whenever every
sprite's padded size fits a page, names are distinct, and the iteration
budget covers one placement plus at most one page-opening per sprite. -/
theorem driverLoop_conserves (W H padding : Int)
    (infos0 : List (String × rect_size))
    (hWM : W < intMax) (hHM : H < intMax)
    (hnames : (infos0.map Prod.fst).Nodup)
    (hsizes : ∀ s ∈ infos0, 0 < s.2.width ∧ s.2.width ≤ W ∧
      0 < s.2.height ∧ s.2.height ≤ H) :
    ∀ (fuel : Nat) (st : DriverState),
      DInv W H infos0 st →
      2 * (infos0.length - st.placed) < fuel →
      ∃ final, driverLoop W H padding fuel st = some final ∧
        DInv W H infos0 final ∧ ¬final.placed < final.infos.length := by
  intro fuel
  induction fuel using Nat.strong_induction_on with
  | _ fuel IH =>
    intro st hinv hfuel
    cases fuel with
    | zero => omega
    | succ f =>
      have hstep_eq : driverLoop W H padding (f + 1) st
          = if st.placed < st.infos.length then
              driverLoop W H padding f (driverStep W H padding st)
            else some st := rfl
      by_cases hlt : st.placed < st.infos.length
      · rw [hstep_eq, if_pos hlt]
        have hN := hinv.1
        by_cases htrue : (spriteLoop st.bins st.infos 0 false (intMax, intMax)
            0 0).1 = true
        · obtain ⟨hinv2, hplaced2⟩ :=
            driverStep_place W H padding infos0 st hWM hnames hinv htrue
          exact IH f (by omega) _ hinv2 (by rw [hplaced2]; omega)
        · obtain ⟨hds, hinv2⟩ := driverStep_open W H padding infos0 st hinv htrue
          rw [hds]
          cases f with
          | zero => omega
          | succ f2 =>
            have hstep2_eq : driverLoop W H padding (f2 + 1)
                { st with bins := st.bins ++ [bin_pack.init W H],
                          regions := st.regions ++ [[]] }
                = if st.placed < st.infos.length then
                    driverLoop W H padding f2 (driverStep W H padding
                      { st with bins := st.bins ++ [bin_pack.init W H],
                                regions := st.regions ++ [[]] })
                  else some { st with bins := st.bins ++ [bin_pack.init W H],
                                      regions := st.regions ++ [[]] } := rfl
            rw [hstep2_eq, if_pos hlt]
            have htrue2 : (spriteLoop
                ({ st with bins := st.bins ++ [bin_pack.init W H],
                           regions := st.regions ++ [[]] } : DriverState).bins
                ({ st with bins := st.bins ++ [bin_pack.init W H],
                           regions := st.regions ++ [[]] } : DriverState).infos
                0 false (intMax, intMax) 0 0).1 = true := by
              apply open_then_fits W H infos0 _ hWM hHM hsizes hinv2
              · exact List.mem_append_right _ (List.mem_singleton.mpr rfl)
              · exact hlt
            obtain ⟨hinv3, hplaced3⟩ := driverStep_place W H padding infos0 _
              hWM hnames hinv2 htrue2
            exact IH f2 (by omega) _ hinv3 (by rw [hplaced3]; dsimp only; omega)
      · rw [hstep_eq, if_neg hlt]
        exact ⟨st, rfl, hinv, hlt⟩

end packer

/-- C8 (amended with pairwise-distinct sprite names): for every input sprite
list with distinct names whose padded sizes are positive and fit the page
size, and a page size below the int-max sentinel, the packing loop completes
within 2n+1 iterations and every submitted sprite's name is recorded in
exactly one page's region map across the whole atlas: none omitted, none
duplicated.  (As stated in the spec the claim is false: duplicate input
names end up in two pages' maps, see the counterexample.) -/
theorem C8_distinct_names_recorded_exactly_once
    (sprites : List (String × rect_size)) (W H padding : Int) (fuel : Nat)
    (hWM : W < intMax) (hHM : H < intMax)
    (hnames : (sprites.map Prod.fst).Nodup)
    (hsizes : ∀ s ∈ sprites,
      0 < s.2.width + padding * 2 ∧ s.2.width + padding * 2 ≤ W ∧
      0 < s.2.height + padding * 2 ∧ s.2.height + padding * 2 ≤ H)
    (hfuel : 2 * sprites.length < fuel) :
    ∃ st, packer.driverRun sprites W H padding fuel = some st ∧
      ∀ name ∈ sprites.map Prod.fst,
        (st.regions.flatten.map Prod.fst).count name = 1 := by
  have hkeys0 : (sprites.map (fun s =>
      (s.1, (⟨s.2.width + padding * 2, s.2.height + padding * 2⟩ :
        rect_size)))).map Prod.fst = sprites.map Prod.fst := by
    rw [List.map_map]
    rfl
  have hnames0 : ((sprites.map (fun s =>
      (s.1, (⟨s.2.width + padding * 2, s.2.height + padding * 2⟩ :
        rect_size)))).map Prod.fst).Nodup := by
    rw [hkeys0]
    exact hnames
  have hsizes0 : ∀ s ∈ sprites.map (fun s =>
      (s.1, (⟨s.2.width + padding * 2, s.2.height + padding * 2⟩ :
        rect_size))),
      0 < s.2.width ∧ s.2.width ≤ W ∧ 0 < s.2.height ∧ s.2.height ≤ H := by
    intro s hs
    obtain ⟨a, ha, rfl⟩ := List.mem_map.mp hs
    exact hsizes a ha
  have hinv0 : packer.DInv W H (sprites.map (fun s =>
      (s.1, (⟨s.2.width + padding * 2, s.2.height + padding * 2⟩ :
        rect_size))))
      ⟨sprites.map (fun s =>
        (s.1, (⟨s.2.width + padding * 2, s.2.height + padding * 2⟩ :
          rect_size))), [], [], 0⟩ := by
    refine ⟨rfl, ?_, ?_, ?_, rfl, ?_⟩
    · intro j hj
      exact ⟨rfl, Or.inl rfl⟩
    · symm
      rw [List.countP_eq_zero]
      intro e he
      obtain ⟨hw0, hw1, -, -⟩ := hsizes0 e he
      simp only [decide_eq_true_eq]
      intro hmk
      rw [hmk] at hw1
      have : (packer.marker.width : Int) = intMax := rfl
      omega
    · rw [List.filter_eq_nil_iff.mpr]
      · exact List.Perm.refl _
      · intro e he
        obtain ⟨hw0, hw1, -, -⟩ := hsizes0 e he
        simp only [decide_eq_true_eq]
        intro hmk
        rw [hmk] at hw1
        have : (packer.marker.width : Int) = intMax := rfl
        omega
    · intro b hb
      cases hb
  obtain ⟨final, hrun, hinvF, hdone⟩ :=
    packer.driverLoop_conserves W H padding _ hWM hHM hnames0 hsizes0 fuel
      ⟨sprites.map (fun s =>
        (s.1, (⟨s.2.width + padding * 2, s.2.height + padding * 2⟩ :
          rect_size))), [], [], 0⟩ hinv0
      (by dsimp only; rw [List.length_map]; omega)
  refine ⟨final, hrun, ?_⟩
  obtain ⟨hlenF, hidxF, hcountF, hpermF, -, -⟩ := hinvF
  have hallmarked : ∀ e ∈ final.infos,
      (fun e => decide (e.2 = packer.marker)) e = true := by
    apply List.countP_eq_length.mp
    have h1 := List.countP_le_length (fun e => decide (e.2 = packer.marker))
      (l := final.infos)
    omega
  have hfilter : final.infos.filter (fun e => decide (e.2 = packer.marker))
      = final.infos := List.filter_eq_self.mpr hallmarked
  rw [hfilter] at hpermF
  have hkeysF : final.infos.map Prod.fst = sprites.map Prod.fst := by
    rw [packer.infos_keys_eq final.infos _ hlenF (fun j hj => (hidxF j hj).1)]
    exact hkeys0
  rw [hkeysF] at hpermF
  intro name hname
  rw [hpermF.count_eq name]
  exact List.count_eq_one_of_mem hnames hname

/-- Witness for the amended C8: one 8x8 sprite with padding 0 into 10x10
pages is packed in one page with its name recorded exactly once. -/
theorem C8_distinct_names_recorded_exactly_once_witness :
    ∃ st, packer.driverRun [("a", ⟨8, 8⟩)] 10 10 0 3 = some st ∧
      ∀ name ∈ [("a", (⟨8, 8⟩ : rect_size))].map Prod.fst,
        (st.regions.flatten.map Prod.fst).count name = 1 :=
  C8_distinct_names_recorded_exactly_once [("a", ⟨8, 8⟩)] 10 10 0 3
    (by decide) (by decide) (by decide) (by decide) (by decide)

end av
